import Mathlib

/-!
# Verification of the nostr-viewer core (bech32 codec and relay manager)

This file gives a shallow embedding, in Lean 4, of the core of the
`nostr-viewer` repository (`src/js/crypto-utils.js`), together with theorems
settling the specification's claims about it.

Conventions of the embedding:
* JS strings are modelled as `List Char` (all strings involved are ASCII).
* JS numbers used in bitwise contexts are modelled as `Nat` holding the
  unsigned 32-bit pattern; 32-bit overflow is made explicit via `int32`
  (reduction mod 2^32), and the JS sign-propagating right shift `>> 27` is
  modelled by `sar27` on the unsigned pattern.
* `throw new Error(msg)` is modelled by `Except.error msg`; the dynamic
  message interpolation of the source is dropped (only which message is
  thrown matters, never its interpolated payload).
-/

namespace CryptoUtils

/-- Source constant `CryptoUtils.BECH32_CHARSET = 'qpzry9x8gf2tvdw0s3jn54khce6mua7l'`. -/
def BECH32_CHARSET : List Char :=
  ['q', 'p', 'z', 'r', 'y', '9', 'x', '8', 'g', 'f', '2', 't', 'v', 'd', 'w', '0',
   's', '3', 'j', 'n', '5', '4', 'k', 'h', 'c', 'e', '6', 'm', 'u', 'a', '7', 'l']

/-- Source constant `CryptoUtils.BECH32_GENERATOR` (indexed access `BECH32_GENERATOR[j]`, j < 5). -/
def BECH32_GENERATOR : Nat → Nat
  | 0 => 0x3b6a57b2
  | 1 => 0x26508e6d
  | 2 => 0x1ea119fa
  | 3 => 0x3d4233dd
  | _ => 0x2a1462b3

/-- Models JS `BECH32_CHARSET.indexOf(char)`: index of the first occurrence, as an
`Option` (`none` models the `-1` result). -/
def charsetLookup (c : Char) : Option Nat :=
  BECH32_CHARSET.findIdx? (· = c)

/-- Models JS `s.startsWith(pfx)` on our `List Char` strings. -/
def strStartsWith (s pfx : List Char) : Bool :=
  s.take pfx.length == pfx

/-- Models JS `s.slice(5, -6)`: characters from index 5 up to (but excluding)
`s.length - 6`; empty when the string is shorter than 11 characters. -/
def slice5Neg6 (s : List Char) : List Char :=
  (s.drop 5).take (s.length - 11)

/-- Reduction to the unsigned 32-bit pattern (JS bitwise operators work on
32-bit integers; we keep the unsigned pattern). -/
def int32 (x : Nat) : Nat := x % 4294967296

/-- Models JS `chk >> 27` (sign-propagating shift) on the unsigned 32-bit pattern
`x < 2^32`: for a pattern with the sign bit set the vacated top bits are
filled with ones. -/
def sar27 (x : Nat) : Nat :=
  if x < 2147483648 then x / 134217728 else x / 134217728 + 4294967264

/-- Embedding of the character-decoding loop of `decodeNpub`/`note1ToHex`: map each
character through `BECH32_CHARSET.indexOf`, throwing
`Invalid character` at the first unknown one. -/
def decodeChars : List Char → Except String (List Nat)
  | [] => .ok []
  | c :: rest =>
    match charsetLookup c with
    | none => .error "Invalid character"
    | some v => (decodeChars rest).map (fun d => v :: d)

/-- Worker for `emitBytes`: the first argument is fuel bounding the number of
remaining loop iterations (each iteration lowers `bits` by 8, so `bits`
itself is always enough fuel), which makes the recursion structural and the
function computable by kernel reduction. -/
def emitBytesAux (acc : Nat) : Nat → Nat → List Nat × Nat
  | 0, bits => ([], bits)
  | fuel + 1, bits =>
    if 8 ≤ bits then
      let r := emitBytesAux acc fuel (bits - 8)
      (((acc / 2 ^ (bits - 8)) % 256) :: r.1, r.2)
    else ([], bits)

/-- Embedding of the inner `while (bits >= 8) { bits -= 8; converted.push((acc >>> bits) & 0xff); }`
loop of the 5-bit → 8-bit conversion: returns the emitted bytes and the
remaining bit count. -/
def emitBytes (acc bits : Nat) : List Nat × Nat :=
  emitBytesAux acc bits bits

/-- Worker for `emitFives`, fueled like `emitBytesAux`. -/
def emitFivesAux (acc : Nat) : Nat → Nat → List Nat × Nat
  | 0, bits => ([], bits)
  | fuel + 1, bits =>
    if 5 ≤ bits then
      let r := emitFivesAux acc fuel (bits - 5)
      (((acc / 2 ^ (bits - 5)) % 32) :: r.1, r.2)
    else ([], bits)

/-- Embedding of the inner `while (bits >= 5) { bits -= 5; converted.push((acc >>> bits) & 31); }`
loop of the 8-bit → 5-bit conversion. -/
def emitFives (acc bits : Nat) : List Nat × Nat :=
  emitFivesAux acc bits bits

/-- Embedding of the `for (const value of decoded) { acc = (acc << 5) | value; bits += 5; … }`
conversion from 5-bit groups to bytes (used by `decodeNpub` and
`note1ToHex`); left-over bits at the end are discarded, exactly as in the
source. -/
def conv5to8 : List Nat → Nat → Nat → List Nat
  | [], _, _ => []
  | v :: rest, acc, bits =>
    let acc2 := Nat.lor (int32 (acc * 32)) v
    let e := emitBytes acc2 (bits + 5)
    e.1 ++ conv5to8 rest acc2 e.2

/-- Embedding of the `for (const value of data) { acc = (acc << 8) | value; bits += 8; … }`
conversion from bytes to 5-bit groups (used by `hexToNpub`), including the
final `if (bits > 0) converted.push((acc << (5 - bits)) & 31)` padding push. -/
def conv8to5 : List Nat → Nat → Nat → List Nat
  | [], acc, bits => if 0 < bits then [int32 (acc * 2 ^ (5 - bits)) % 32] else []
  | v :: rest, acc, bits =>
    let acc2 := Nat.lor (int32 (acc * 256)) v
    let e := emitFives acc2 (bits + 8)
    e.1 ++ conv8to5 rest acc2 e.2

/-- Embedding of one `if (((chk >> j) & 1)) chk ^= BECH32_GENERATOR[j];` step. -/
def genStep (chk j : Nat) : Nat :=
  if chk.testBit j then chk ^^^ BECH32_GENERATOR j else chk

/-- Embedding of the `for (let j = 0; j < 5; j++)` generator loop of `bech32Checksum`. -/
def genLoop (chk : Nat) : Nat :=
  (List.range 5).foldl genStep chk

/-- Embedding of `chk = (chk << 5) ^ (chk >> 27)` followed by the generator loop —
the round performed after every symbol in `bech32Checksum`. -/
def polymodRound (chk : Nat) : Nat :=
  genLoop ((int32 (chk * 32)) ^^^ (sar27 chk))

/-- Source `CryptoUtils.bech32Checksum(hrp, data)`: the checksum routine of the
source, with its two passes over the human-readable part (high then low
5-bit halves of the character codes), the data pass, six trailing rounds,
final `chk ^= 1`, and extraction of six 5-bit symbols. -/
def bech32Checksum (hrp : List Char) (data : List Nat) : List Nat :=
  let chk1 := hrp.foldl (fun c ch => polymodRound (c ^^^ (ch.toNat / 32))) 1
  let chk2 := polymodRound chk1
  let chk3 := hrp.foldl (fun c ch => polymodRound (c ^^^ (ch.toNat % 32))) chk2
  let chk4 := data.foldl (fun c v => polymodRound (c ^^^ v)) chk3
  let chk5 := (List.range 6).foldl (fun c _ => polymodRound c) chk4
  let chk6 := chk5 ^^^ 1
  (List.range 6).map (fun i => (chk6 / 2 ^ (5 * (5 - i))) % 32)

/-- Embedding of the `// Remove the witness version (first byte) - for npub it should be 0`
step: `if (converted.length > 0 && converted[0] === 0) return converted.slice(1)`. -/
def stripVersion : List Nat → List Nat
  | 0 :: rest => rest
  | l => l

/-- Source `CryptoUtils.decodeNpub(npub)`: prefix check, removal of the prefix and of
the last six (checksum) characters, charset decoding, 5→8 bit repacking and
witness-version stripping.  Note the source never recomputes or verifies the
checksum. -/
def decodeNpub (npub : List Char) : Except String (List Nat) :=
  if strStartsWith npub ("npub1".data) then
    match decodeChars (slice5Neg6 npub) with
    | .error e => .error e
    | .ok decoded => .ok (stripVersion (conv5to8 decoded 0 0))
  else .error "Must start with npub1"

/-- Models JS `parseInt(c, 16)` on a single character (upper- or lower-case hex
digit), `none` modelling `NaN`. -/
def hexDigitVal (c : Char) : Option Nat :=
  if c < '0' then none
  else if c ≤ '9' then some (c.toNat - 48)
  else if c < 'A' then none
  else if c ≤ 'F' then some (c.toNat - 55)
  else if c < 'a' then none
  else if c ≤ 'f' then some (c.toNat - 87)
  else none

/-- Models JS `parseInt(hex.substr(i, 2), 16)` as used in the bitwise context of
`hexToNpub`: `parseInt` parses the longest valid prefix, and a `NaN` result
behaves as `0` under the subsequent bitwise operators. -/
def parseHexPair (a b : Char) : Nat :=
  match hexDigitVal a, hexDigitVal b with
  | some x, some y => 16 * x + y
  | some x, none => x
  | none, _ => 0

/-- Embedding of the `for (let i = 0; i < hex.length; i += 2)` byte-parsing loop of
`hexToNpub`. -/
def hexPairs : List Char → List Nat
  | a :: b :: rest => parseHexPair a b :: hexPairs rest
  | [a] => [(hexDigitVal a).getD 0]
  | [] => []

/-- Models JS `s.padStart(n, c)`. -/
def padStart (n : Nat) (c : Char) (s : List Char) : List Char :=
  List.replicate (n - s.length) c ++ s

/-- Source `CryptoUtils.hexToNpub(hex)`: strip an optional `0x`, left-pad to 64
characters, parse bytes, prepend the zero witness version, repack 8→5 bits,
append the checksum and render through the charset. -/
def hexToNpub (hex : List Char) : List Char :=
  let h1 := if strStartsWith hex ("0x".data) then hex.drop 2 else hex
  let h2 := padStart 64 '0' h1
  let bytes := hexPairs h2
  let data := 0 :: bytes
  let converted := conv8to5 data 0 0
  let checksum := bech32Checksum ("npub".data) converted
  "npub1".data ++ (converted ++ checksum).map (fun v => BECH32_CHARSET.getD v 'q')

/-- Embedding of the 16 hexadecimal digit characters, in value order. -/
def HEX_DIGITS : List Char :=
  "0123456789abcdef".data

/-- Rendering of one hex digit value (always called with an argument < 16). -/
def hexDigitChar (n : Nat) : Char :=
  HEX_DIGITS.getD n '0'

/-- Models JS `b.toString(16).padStart(2, '0')` for a byte value `b < 256` (every
byte produced by the decoder is taken mod 256, so this is the only domain the
source applies it to). -/
def hexByte (b : Nat) : List Char :=
  [hexDigitChar (b / 16 % 16), hexDigitChar (b % 16)]

/-- Models JS `bytes.map(b => b.toString(16).padStart(2, '0')).join('')`. -/
def bytesToHex (bs : List Nat) : List Char :=
  bs.flatMap hexByte

/-- Source `CryptoUtils.npubToHex(npub)`: decode strings starting with `npub`,
rendering the bytes as hex left-padded to 64 characters and re-wrapping any
decode error; return every other string unchanged. -/
def npubToHex (npub : List Char) : Except String (List Char) :=
  if strStartsWith npub ("npub".data) then
    match decodeNpub npub with
    | .ok bytes => .ok (padStart 64 '0' (bytesToHex bytes))
    | .error e => .error ("Invalid npub format: " ++ e)
  else .ok npub

/-- Embedding of the character class of the regex `/^[0-9a-fA-F]{64}$/`'s body. -/
def isHexChar (c : Char) : Bool :=
  (hexDigitVal c).isSome

/-- Embedding of the regex test `/^[0-9a-fA-F]{64}$/.test(hex)`. -/
def regexTest64 (s : List Char) : Bool :=
  s.length == 64 && s.all isHexChar

/-- Source `CryptoUtils.validatePubkey(pubkey)`: normalize through `npubToHex` and
test the regex, any thrown error yielding `false`. -/
def validatePubkey (pubkey : List Char) : Bool :=
  match npubToHex pubkey with
  | .ok h => regexTest64 h
  | .error _ => false

/-- Source `CryptoUtils.normalizeKey(key)` — an alias for `npubToHex`. -/
def normalizeKey (key : List Char) : Except String (List Char) :=
  npubToHex key

/-- Source `CryptoUtils.note1ToHex(note1)`: identical decoding pipeline with the
`note1` prefix, rendering the resulting bytes as hex (with no padding) and
re-wrapping inner errors. -/
def note1ToHex (note1 : List Char) : Except String (List Char) :=
  if strStartsWith note1 ("note1".data) then
    match decodeChars (slice5Neg6 note1) with
    | .error e => .error ("Invalid note1 format: " ++ e)
    | .ok decoded => .ok (bytesToHex (stripVersion (conv5to8 decoded 0 0)))
  else .error "Must start with note1"

/-- Modelled from the spec: the repository decodes `note1` strings but has no
event-id encoder under `src/`; §4.4's `encode(prefix, rawBytes)` with the
event-id prefix `note1` prescribes the identical bit-packing and checksum
algorithm as the public-key encoder, with human-readable part `note`.  This
definition applies it to the bytes of a 64-character hex string, mirroring
`hexToNpub`. -/
def hexToNote1 (hex : List Char) : List Char :=
  let bytes := hexPairs hex
  let data := 0 :: bytes
  let converted := conv8to5 data 0 0
  let checksum := bech32Checksum ("note".data) converted
  "note1".data ++ (converted ++ checksum).map (fun v => BECH32_CHARSET.getD v 'q')

end CryptoUtils

/-! ## Specification-level views of the bit repacking

To reason about the 8-bit/5-bit repacking loops we describe a bit stream as a
pair of a value `n` and a bit length `len` (the stream is the `len`-bit
big-endian representation of `n % 2 ^ len`), and give direct recursive
functions extracting the 8-bit and 5-bit groups of such a stream.  The loops
of the source are proved equal to these views below. -/

namespace CryptoUtils

/-- Value of a list of `w`-bit groups read as one big-endian number. -/
def listNum (w : Nat) (vs : List Nat) : Nat :=
  vs.foldl (fun a v => a * 2 ^ w + v) 0

/-- Big-endian 8-bit groups of the bit stream `(n, len)`; a final partial
group of fewer than 8 bits is discarded. -/
def chunk8Num (n len : Nat) : List Nat :=
  if h : 8 ≤ len then ((n / 2 ^ (len - 8)) % 256) :: chunk8Num n (len - 8) else []
termination_by len

/-- Big-endian 5-bit groups of the bit stream `(n, len)`; a final partial
group is padded with zero bits on the right, as the encoder does. -/
def chunk5Num (n len : Nat) : List Nat :=
  if h : 5 ≤ len then ((n / 2 ^ (len - 5)) % 32) :: chunk5Num n (len - 5)
  else if 0 < len then [(n % 2 ^ len) * 2 ^ (5 - len)] else []
termination_by len

end CryptoUtils

namespace RelayManager

/-! ## Embedding of `RelayManager` (`src/js/crypto-utils.js`, second class)

The manager owns mutable state (connection list, two `Map`s, and — through
`setTimeout` — a set of pending timers).  We model it as explicit state
passing: `RMState` is the full mutable state plus two observation logs (the
frames sent to relays and the callbacks invoked), and each method is a state
transformer.  Subscriber callbacks are defunctionalized: `Handler.external`
is an arbitrary caller-supplied callback, observable only through the call
log, whose optional `throws` flag records that it raises — the `try/catch`
inside the dispatch loop of `handleEvent` swallows the exception, so a
throwing callback has the same effect on the manager as a returning one, and
the flag lets theorems quantify over both; `Handler.fetchOneTime` is the
`oneTimeHandler` closure created by `fetchEvent`.  JS `Map`s are association
lists in insertion order (`mapGet`/`mapSet`/`mapDelete`/`mapHas`). -/

/-- Parsed event object of an inbound EVENT frame (fields the core reads). -/
structure EventData where
  id : List Char
  pubkey : List Char
  kind : Nat
  content : List Char
deriving DecidableEq

/-- Filter object, passed through verbatim. -/
structure Filters where
  ids : Option (List (List Char)) := none
  kinds : Option (List Nat) := none
  authors : Option (List (List Char)) := none
  limit : Option Nat := none
deriving DecidableEq

/-- Defunctionalized event-handler callbacks (see the section comment). -/
inductive Handler
  | external (hid : Nat) (throws : Bool)
  | fetchOneTime (eventId : List Char) (userCb : Nat)
deriving DecidableEq

/-- Defunctionalized `onEOSE` callbacks: an arbitrary caller-supplied one,
or the cleanup closure installed by `fetchEvent`. -/
inductive EoseCb
  | external (n : Nat)
  | fetchEose (eventId : List Char)
deriving DecidableEq

/-- Records stored in `this.subscriptions`. -/
structure Subscription where
  filters : Filters
  handler : Handler
  onEOSE : Option EoseCb
deriving DecidableEq

/-- Pending `setTimeout` callbacks created by `fetchEvent`: the
post-match delayed `unsubscribe`, and the post-EOSE cleanup that first
re-checks `subscriptions.has`. -/
inductive TimerAction
  | delayedUnsub (subId : List Char)
  | eoseCleanup (subId : List Char) (eventId : List Char)
deriving DecidableEq

/-- A scheduled timer: absolute firing time and its action. -/
structure Timer where
  fireAt : Nat
  action : TimerAction
deriving DecidableEq

/-- An entry of `this.activeConnections`: url plus whether the socket
readyState is OPEN. -/
structure Conn where
  url : List Char
  wsOpen : Bool
deriving DecidableEq

/-- Outbound frames (`["REQ", id, filters]` / `["CLOSE", id]`). -/
inductive OutMsg
  | req (subId : List Char) (filters : Filters)
  | close (subId : List Char)
deriving DecidableEq

/-- Observation log entries: an `onEvent` handler invocation, the user
callback invocation inside `fetchEvent`, and an external `onEOSE` call. -/
inductive CallRec
  | onEvent (h : Handler) (ev : EventData) (relay : List Char)
  | fetchCb (userCb : Nat) (ev : EventData)
  | eoseExternal (n : Nat) (relay : List Char)
deriving DecidableEq

/-- The full manager state: the three mutable containers of the source, the
pending timers and current clock, and the two observation logs. -/
structure RMState where
  activeConnections : List Conn
  eventHandlers : List (List Char × List Handler)
  subscriptions : List (List Char × Subscription)
  timers : List Timer
  clock : Nat
  outbox : List (List Char × OutMsg)
  calls : List CallRec
deriving DecidableEq

/-- Models JS `map.get(k)` (association list, first match). -/
def mapGet {K V : Type} [DecidableEq K] (m : List (K × V)) (k : K) : Option V :=
  (m.find? (fun p => p.1 == k)).map Prod.snd

/-- Models JS `map.set(k, v)`: replace in place, else append. -/
def mapSet {K V : Type} [DecidableEq K] : List (K × V) → K → V → List (K × V)
  | [], k, v => [(k, v)]
  | (k', v') :: rest, k, v =>
    if k' = k then (k, v) :: rest else (k', v') :: mapSet rest k v

/-- Models JS `map.delete(k)`. -/
def mapDelete {K V : Type} [DecidableEq K] (m : List (K × V)) (k : K) : List (K × V) :=
  m.filter (fun p => ¬ p.1 = k)

/-- Models JS `map.has(k)`. -/
def mapHas {K V : Type} [DecidableEq K] (m : List (K × V)) (k : K) : Bool :=
  (mapGet m k).isSome

/-- Embedding of `const subscriptionId = `event_${eventId.slice(0, 8)}`` in
`fetchEvent`. -/
def fetchSubId (eventId : List Char) : List Char :=
  "event_".data ++ eventId.take 8

/-- Effect of invoking one registered handler inside the dispatch loop of
`handleEvent` (the `try { handler(eventData, relayUrl) } catch …` body): the
invocation is logged; an external callback has no further effect on the
manager (if it throws, the catch swallows the exception, so the loop
continues either way); the `oneTimeHandler` of `fetchEvent` additionally, on
an id match, invokes the user callback and schedules the delayed
`unsubscribe` 1000 ms ahead. -/
def runHandler (relayUrl : List Char) (eventData : EventData) (s : RMState) (h : Handler) : RMState :=
  let s1 := { s with calls := s.calls ++ [CallRec.onEvent h eventData relayUrl] }
  match h with
  | .external _ _ => s1
  | .fetchOneTime eventId userCb =>
    if eventData.id = eventId then
      { s1 with
        calls := s1.calls ++ [CallRec.fetchCb userCb eventData],
        timers := s1.timers ++ [⟨s1.clock + 1000, TimerAction.delayedUnsub (fetchSubId eventId)⟩] }
    else s1

/-- Source `RelayManager.handleEvent(relayUrl, subscriptionId, eventData)`:
look up the handler list for the id and invoke each handler in order
(`handlers.forEach`), each invocation individually guarded by `try/catch`;
an unknown id is a no-op. -/
def handleEvent (relayUrl subId : List Char) (eventData : EventData) (s : RMState) : RMState :=
  match mapGet s.eventHandlers subId with
  | none => s
  | some handlers => handlers.foldl (runHandler relayUrl eventData) s

/-- Source `RelayManager.handleEndOfStoredEvents(relayUrl, subscriptionId)`:
invoke the `onEOSE` callback of the stored subscription, if any.  The
`fetchEvent` cleanup closure schedules, 2000 ms ahead, an unsubscribe guarded
by a fresh `subscriptions.has` check. -/
def handleEndOfStoredEvents (relayUrl subId : List Char) (s : RMState) : RMState :=
  match mapGet s.subscriptions subId with
  | none => s
  | some sub =>
    match sub.onEOSE with
    | none => s
    | some (.external n) => { s with calls := s.calls ++ [CallRec.eoseExternal n relayUrl] }
    | some (.fetchEose eventId) =>
      { s with timers := s.timers ++ [⟨s.clock + 2000, TimerAction.eoseCleanup (fetchSubId eventId) eventId⟩] }

/-- The `options` object of `subscribe`. -/
structure SubOptions where
  onEOSE : Option EoseCb := none
deriving DecidableEq

/-- Source `RelayManager.subscribe(subscriptionId, filters, eventHandler, options)`:
store the subscription record (overwriting any previous one), ensure a
handler list exists for the id, push the handler onto it, and send a REQ
frame to every currently open connection. -/
def subscribe (subId : List Char) (filters : Filters) (eventHandler : Handler) (options : SubOptions) (s : RMState) : RMState :=
  let s1 := { s with subscriptions := mapSet s.subscriptions subId ⟨filters, eventHandler, options.onEOSE⟩ }
  let hs0 := if mapHas s1.eventHandlers subId then s1.eventHandlers else mapSet s1.eventHandlers subId []
  let s2 := { s1 with eventHandlers := mapSet hs0 subId ((mapGet hs0 subId).getD [] ++ [eventHandler]) }
  { s2 with outbox := s2.outbox ++ (s2.activeConnections.filter (fun c => c.wsOpen)).map (fun c => (c.url, OutMsg.req subId filters)) }

/-- Source `RelayManager.unsubscribe(subscriptionId)`: remove the handler
list and the subscription record, and send a CLOSE frame to every currently
open connection. -/
def unsubscribe (subId : List Char) (s : RMState) : RMState :=
  let s1 := { s with eventHandlers := mapDelete s.eventHandlers subId,
                     subscriptions := mapDelete s.subscriptions subId }
  { s1 with outbox := s1.outbox ++ (s1.activeConnections.filter (fun c => c.wsOpen)).map (fun c => (c.url, OutMsg.close subId)) }

/-- Source `RelayManager.fetchEvent(eventId, handler)`: subscribe under the
eventId-derived id with filter `{ids: [eventId], limit: 1}`, the
`oneTimeHandler` as event handler and the cleanup closure as `onEOSE`. -/
def fetchEvent (eventId : List Char) (userCb : Nat) (s : RMState) : RMState :=
  subscribe (fetchSubId eventId) { ids := some [eventId], limit := some 1 }
    (Handler.fetchOneTime eventId userCb) { onEOSE := some (EoseCb.fetchEose eventId) } s

/-- Firing one due timer. -/
def runTimerAction (s : RMState) : TimerAction → RMState
  | .delayedUnsub subId => unsubscribe subId s
  | .eoseCleanup subId _ =>
    if mapHas s.subscriptions subId then unsubscribe subId s else s

/-- Passage of `d` milliseconds: the clock advances and every timer falling
due in the window fires (in insertion order). -/
def advanceClock (d : Nat) (s : RMState) : RMState :=
  let t := s.clock + d
  let due := s.timers.filter (fun tm => tm.fireAt ≤ t)
  let rest := s.timers.filter (fun tm => ¬ tm.fireAt ≤ t)
  due.foldl (fun st tm => runTimerAction st tm.action) { s with clock := t, timers := rest }

/-- Parsed inbound frames (`handleRelayMessage` after `JSON.parse`). -/
inductive InMsg
  | event (subId : List Char) (eventData : EventData)
  | eose (subId : List Char)
  | closed (subId : List Char)
  | auth
deriving DecidableEq

/-- Source `RelayManager.handleRelayMessage(relayUrl, event)` on an already
parsed frame: EVENT and EOSE are routed, CLOSED and AUTH are logged only. -/
def handleRelayMessage (relayUrl : List Char) (s : RMState) : InMsg → RMState
  | .event subId ev => handleEvent relayUrl subId ev s
  | .eose subId => handleEndOfStoredEvents relayUrl subId s
  | .closed _ => s
  | .auth => s

/-- One observable step of an execution: an inbound frame from some relay,
or the passage of time. -/
inductive Step
  | msg (relayUrl : List Char) (m : InMsg)
  | advance (d : Nat)
deriving DecidableEq

/-- Running one step. -/
def runStep (s : RMState) : Step → RMState
  | .msg r m => handleRelayMessage r s m
  | .advance d => advanceClock d s

/-- Running a sequence of steps in order. -/
def runSteps (steps : List Step) (s : RMState) : RMState :=
  steps.foldl runStep s

/-- The state of a freshly constructed `RelayManager`. -/
def initState : RMState :=
  ⟨[], [], [], [], 0, [], []⟩

/-- Source `RelayManager.getConnectedCount()`. -/
def getConnectedCount (s : RMState) : Nat :=
  (s.activeConnections.filter (fun c => c.wsOpen)).length

/-- Timed behavior of one socket, as far as `connectToRelay` observes it:
`onopen` fires at time `t`, or `onerror` fires at time `t`, or neither ever
fires. -/
inductive SocketBehavior
  | opensAt (t : Nat)
  | errorsAt (t : Nat)
  | silent
deriving DecidableEq

/-- Source `RelayManager.connectToRelay(url)`: the returned promise settles
exactly once — it resolves with the socket if `onopen` fires before the
5000 ms timeout (and before any error), and rejects at the earlier of the
error and the timeout otherwise.  Result: (settle time, outcome). -/
def connectToRelay (url : List Char) : SocketBehavior → Nat × Except Unit Conn
  | .opensAt t => if t < 5000 then (t, .ok ⟨url, true⟩) else (5000, .error ())
  | .errorsAt t => if t < 5000 then (t, .error ()) else (5000, .error ())
  | .silent => (5000, .error ())

/-- The per-url outcome object of `connectToRelays`
(`{url, success: true} | {url, success: false}`; the `ws`/`error` payloads
are not modelled). -/
structure ConnResult where
  url : List Char
  success : Bool
deriving DecidableEq

/-- One arm of the `relayUrls.map(async relay => …)` of `connectToRelays`:
await the single-relay connect; on success push the connection onto
`activeConnections`, on failure catch the error; in both cases the arm
settles (it never rejects) with its outcome object at the settle time of the
underlying attempt. -/
def connectAttempt (s : RMState) (rb : List Char × SocketBehavior) : RMState × Nat × ConnResult :=
  match connectToRelay rb.1 rb.2 with
  | (t, .ok ws) => ({ s with activeConnections := s.activeConnections ++ [ws] }, t, ⟨rb.1, true⟩)
  | (t, .error _) => (s, t, ⟨rb.1, false⟩)

/-- Source `RelayManager.connectToRelays(relayUrls)`: every attempt runs
independently (no attempt observes or cancels another); the
`Promise.allSettled` join settles exactly once, at the latest of the
individual settle times, with the list of per-url outcomes in input order.
Result: (state, resolve time, outcomes). -/
def connectToRelays (relays : List (List Char × SocketBehavior)) (s : RMState) : RMState × Nat × List ConnResult :=
  match relays with
  | [] => (s, 0, [])
  | rb :: rest =>
    let a := connectAttempt s rb
    let r := connectToRelays rest a.1
    (r.1, max a.2.1 r.2.1, a.2.2 :: r.2.2)

/-- Whether a connection attempt with the given socket behavior succeeds:
exactly when `onopen` fires within the 5000 ms per-relay timeout. -/
def attemptSucceeds : SocketBehavior → Bool
  | .opensAt t => t < 5000
  | _ => false

/-- The outcome object a given attempt settles with. -/
def attemptOutcome (rb : List Char × SocketBehavior) : ConnResult :=
  ⟨rb.1, attemptSucceeds rb.2⟩

/-- Predicate singling out the arbitrary caller-supplied callbacks (the ones
with no effect on manager state beyond the call log). -/
def isExternal : Handler → Bool
  | .external _ _ => true
  | _ => false

end RelayManager

/-! ## Association-map lemmas -/

namespace RelayManager

theorem mapGet_cons {K V : Type} [DecidableEq K] (p : K × V) (rest : List (K × V)) (k : K) :
    mapGet (p :: rest) k = if p.1 = k then some p.2 else mapGet rest k := by
  by_cases h : p.1 = k <;> simp [mapGet, List.find?_cons, h]

theorem mapDelete_cons {K V : Type} [DecidableEq K] (p : K × V) (rest : List (K × V)) (k : K) :
    mapDelete (p :: rest) k = if p.1 = k then mapDelete rest k else p :: mapDelete rest k := by
  by_cases h : p.1 = k <;> simp [mapDelete, List.filter_cons, h]

theorem mapSet_cons {K V : Type} [DecidableEq K] (a : K) (b : V) (rest : List (K × V)) (k : K) (v : V) :
    mapSet ((a, b) :: rest) k v = if a = k then (k, v) :: rest else (a, b) :: mapSet rest k v :=
  rfl

theorem mapGet_delete {K V : Type} [DecidableEq K] (m : List (K × V)) (k k' : K) :
    mapGet (mapDelete m k) k' = if k' = k then none else mapGet m k' := by
  induction m with
  | nil => simp [mapGet, mapDelete]
  | cons p rest ih =>
    rw [mapDelete_cons]
    by_cases hp : p.1 = k
    · rw [if_pos hp, ih, mapGet_cons]
      by_cases hk : k' = k
      · simp [hk]
      · have : ¬ p.1 = k' := by rw [hp]; exact fun h => hk h.symm
        simp [hk, this]
    · rw [if_neg hp, mapGet_cons, mapGet_cons, ih]
      by_cases hk : k' = k
      · have : ¬ p.1 = k' := by rw [hk]; exact hp
        simp [hk, this, hp]
      · simp [hk]

theorem mapGet_set {K V : Type} [DecidableEq K] (m : List (K × V)) (k k' : K) (v : V) :
    mapGet (mapSet m k v) k' = if k' = k then some v else mapGet m k' := by
  induction m with
  | nil =>
    rw [show mapSet ([] : List (K × V)) k v = [(k, v)] from rfl, mapGet_cons]
    by_cases hk : k' = k
    · simp [hk]
    · have h1 : ¬ (k : K) = k' := fun h => hk h.symm
      simp [hk, h1, mapGet]
  | cons p rest ih =>
    obtain ⟨a, b⟩ := p
    rw [mapSet_cons]
    by_cases hp : a = k
    · rw [if_pos hp, mapGet_cons, mapGet_cons]
      by_cases hk : k' = k
      · simp [hk]
      · have h1 : ¬ (k : K) = k' := fun h => hk h.symm
        have h2 : ¬ (a : K) = k' := by rw [hp]; exact h1
        simp [h1, h2, hk]
    · rw [if_neg hp, mapGet_cons, mapGet_cons, ih]
      by_cases hk : k' = k
      · have h2 : ¬ (a : K) = k' := by rw [hk]; exact hp
        simp [hk, h2, hp]
      · simp [hk]

theorem mapDelete_absent {K V : Type} [DecidableEq K] (m : List (K × V)) (k : K)
    (h : mapGet m k = none) : mapDelete m k = m := by
  induction m with
  | nil => rfl
  | cons p rest ih =>
    rw [mapGet_cons] at h
    by_cases hp : p.1 = k
    · rw [if_pos hp] at h; exact absurd h (by simp)
    · rw [if_neg hp] at h
      rw [mapDelete_cons, if_neg hp, ih h]

end RelayManager

/-! ## Dispatch lemmas and the registry claims (C5, C8, C9, C10) -/

namespace RelayManager

theorem foldl_runHandler_external (relayUrl : List Char) (ev : EventData) :
    ∀ (hs : List Handler) (s : RMState), (∀ h ∈ hs, isExternal h = true) →
    hs.foldl (runHandler relayUrl ev) s
      = { s with calls := s.calls ++ hs.map (fun h => CallRec.onEvent h ev relayUrl) } := by
  intro hs
  induction hs with
  | nil => intro s _; simp
  | cons h rest ih =>
    intro s hext
    have hh : isExternal h = true := hext h (by simp)
    have hrest : ∀ g ∈ rest, isExternal g = true := fun g hm => hext g (by simp [hm])
    obtain ⟨a, b, rfl⟩ : ∃ a b, h = Handler.external a b := by
      cases h with
      | external a b => exact ⟨a, b, rfl⟩
      | fetchOneTime e u => simp [isExternal] at hh
    rw [List.foldl_cons,
      show runHandler relayUrl ev s (Handler.external a b)
        = { s with calls := s.calls ++ [CallRec.onEvent (Handler.external a b) ev relayUrl] } from rfl,
      ih _ hrest]
    simp

theorem handleEvent_external (s : RMState) (subId relayUrl : List Char) (ev : EventData)
    (hs : List Handler) (hget : mapGet s.eventHandlers subId = some hs)
    (hext : ∀ h ∈ hs, isExternal h = true) :
    handleEvent relayUrl subId ev s
      = { s with calls := s.calls ++ hs.map (fun h => CallRec.onEvent h ev relayUrl) } := by
  simp only [handleEvent, hget]
  exact foldl_runHandler_external relayUrl ev hs s hext

/-- C5: an EVENT frame for an id arriving after `unsubscribe(id)` has
completed invokes no callback and changes nothing (dispatch for the removed
id is a no-op), and unsubscribing an id unknown to the registry leaves both
registry maps unchanged. -/
theorem c5_unsubscribe_then_deliver (s : RMState) (subId relayUrl : List Char) (ev : EventData) :
    handleEvent relayUrl subId ev (unsubscribe subId s) = unsubscribe subId s
    ∧ (mapGet s.eventHandlers subId = none ∧ mapGet s.subscriptions subId = none →
        (unsubscribe subId s).eventHandlers = s.eventHandlers
        ∧ (unsubscribe subId s).subscriptions = s.subscriptions) := by
  constructor
  · have h : mapGet (unsubscribe subId s).eventHandlers subId = none := by
      show mapGet (mapDelete s.eventHandlers subId) subId = none
      rw [mapGet_delete]; simp
    simp only [handleEvent, h]
  · rintro ⟨h1, h2⟩
    exact ⟨mapDelete_absent _ _ h1, mapDelete_absent _ _ h2⟩

theorem c5_witness :
    handleEvent ("r1".data) ("sub".data) ⟨"e".data, "p".data, 1, []⟩
        (unsubscribe ("sub".data) initState)
      = unsubscribe ("sub".data) initState
    ∧ ((unsubscribe ("sub".data) initState).eventHandlers = initState.eventHandlers
        ∧ (unsubscribe ("sub".data) initState).subscriptions = initState.subscriptions) :=
  ⟨(c5_unsubscribe_then_deliver initState ("sub".data) ("r1".data) ⟨"e".data, "p".data, 1, []⟩).1,
   (c5_unsubscribe_then_deliver initState ("sub".data) ("r1".data) ⟨"e".data, "p".data, 1, []⟩).2
     ⟨rfl, rfl⟩⟩

/-- C10: a throwing `onEvent` callback is caught inside the dispatch loop of
`handleEvent`: every handler registered for the id (including ones after the
throwing one, whose `throws` flag is `true`) is still invoked exactly once,
in order, and the registry maps, connection list, timers and outbox are
unchanged by the dispatch. -/
theorem c10_callback_exception_contained (s : RMState) (subId relayUrl : List Char)
    (ev : EventData) (hs : List Handler)
    (hget : mapGet s.eventHandlers subId = some hs)
    (hext : ∀ h ∈ hs, isExternal h = true) :
    (handleEvent relayUrl subId ev s).calls
        = s.calls ++ hs.map (fun h => CallRec.onEvent h ev relayUrl)
    ∧ (handleEvent relayUrl subId ev s).eventHandlers = s.eventHandlers
    ∧ (handleEvent relayUrl subId ev s).subscriptions = s.subscriptions
    ∧ (handleEvent relayUrl subId ev s).activeConnections = s.activeConnections
    ∧ (handleEvent relayUrl subId ev s).timers = s.timers
    ∧ (handleEvent relayUrl subId ev s).outbox = s.outbox := by
  rw [handleEvent_external s subId relayUrl ev hs hget hext]
  exact ⟨rfl, rfl, rfl, rfl, rfl, rfl⟩

theorem c10_witness :
    (handleEvent ("r1".data) ("s1".data) ⟨"e".data, "p".data, 1, []⟩
        ⟨[], [(("s1".data), [Handler.external 1 true, Handler.external 2 false])], [], [], 0, [], []⟩).calls
      = [] ++ [Handler.external 1 true, Handler.external 2 false].map
          (fun h => CallRec.onEvent h ⟨"e".data, "p".data, 1, []⟩ ("r1".data))
    ∧ (handleEvent ("r1".data) ("s1".data) ⟨"e".data, "p".data, 1, []⟩
        ⟨[], [(("s1".data), [Handler.external 1 true, Handler.external 2 false])], [], [], 0, [], []⟩).eventHandlers
      = [(("s1".data), [Handler.external 1 true, Handler.external 2 false])] := by
  have h := c10_callback_exception_contained
    ⟨[], [(("s1".data), [Handler.external 1 true, Handler.external 2 false])], [], [], 0, [], []⟩
    ("s1".data) ("r1".data) ⟨"e".data, "p".data, 1, []⟩
    [Handler.external 1 true, Handler.external 2 false]
    (by decide) (by decide)
  exact ⟨h.1, h.2.1⟩

/-- C8: the registry deduplicates nothing — every inbound EVENT frame whose
subscription id is registered invokes each registered callback once, so the
same event delivered by each relay in `relays` produces one invocation per
relay (per registered handler), with no other state change. -/
theorem c8_no_dedup (subId : List Char) (ev : EventData) (hs : List Handler)
    (hext : ∀ h ∈ hs, isExternal h = true) :
    ∀ (relays : List (List Char)) (s : RMState), mapGet s.eventHandlers subId = some hs →
    runSteps (relays.map (fun r => Step.msg r (InMsg.event subId ev))) s
      = { s with calls := s.calls
            ++ relays.flatMap (fun r => hs.map (fun h => CallRec.onEvent h ev r)) } := by
  intro relays
  induction relays with
  | nil => intro s _; simp [runSteps]
  | cons r rest ih =>
    intro s hget
    have h1 : runStep s (Step.msg r (InMsg.event subId ev))
        = { s with calls := s.calls ++ hs.map (fun h => CallRec.onEvent h ev r) } :=
      handleEvent_external s subId r ev hs hget hext
    simp only [runSteps, List.map_cons, List.foldl_cons] at *
    rw [h1, ih { s with calls := s.calls ++ hs.map (fun h => CallRec.onEvent h ev r) } hget]
    simp

theorem c8_witness :
    runSteps (["r1".data, "r2".data, "r3".data].map
        (fun r => Step.msg r (InMsg.event ("s1".data) ⟨"e".data, "p".data, 1, []⟩)))
      ⟨[], [(("s1".data), [Handler.external 7 false])], [], [], 0, [], []⟩
      = ⟨[], [(("s1".data), [Handler.external 7 false])], [], [], 0, [],
          [CallRec.onEvent (Handler.external 7 false) ⟨"e".data, "p".data, 1, []⟩ ("r1".data),
           CallRec.onEvent (Handler.external 7 false) ⟨"e".data, "p".data, 1, []⟩ ("r2".data),
           CallRec.onEvent (Handler.external 7 false) ⟨"e".data, "p".data, 1, []⟩ ("r3".data)]⟩ := by
  have h := c8_no_dedup ("s1".data) ⟨"e".data, "p".data, 1, []⟩ [Handler.external 7 false]
    (by decide) ["r1".data, "r2".data, "r3".data]
    ⟨[], [(("s1".data), [Handler.external 7 false])], [], [], 0, [], []⟩ (by decide)
  simpa using h

end RelayManager

namespace RelayManager

theorem subscribe_eventHandlers_fresh (s : RMState) (subId : List Char) (f : Filters)
    (h : Handler) (o : SubOptions) (hnone : mapGet s.eventHandlers subId = none) :
    (subscribe subId f h o s).eventHandlers
      = mapSet (mapSet s.eventHandlers subId []) subId [h] := by
  simp [subscribe, mapHas, hnone, mapGet_set]

theorem subscribe_eventHandlers_existing (s : RMState) (subId : List Char) (f : Filters)
    (h : Handler) (o : SubOptions) (cur : List Handler)
    (hsome : mapGet s.eventHandlers subId = some cur) :
    (subscribe subId f h o s).eventHandlers = mapSet s.eventHandlers subId (cur ++ [h]) := by
  simp [subscribe, mapHas, hsome, mapGet_set]

theorem subscribe_subscriptions (s : RMState) (subId : List Char) (f : Filters)
    (h : Handler) (o : SubOptions) :
    (subscribe subId f h o s).subscriptions
      = mapSet s.subscriptions subId ⟨f, h, o.onEOSE⟩ := rfl

/-- C9: subscribing a second time under an already-registered id (with no
unsubscribe in between) overwrites the stored subscription record with the
second one but appends a second entry to the handler list of the id, so a
subsequent EVENT frame for the id invokes a callback once per subscribe call. -/
theorem c9_double_subscribe (s : RMState) (subId : List Char) (f1 f2 : Filters)
    (h1 h2 : Handler) (o1 o2 : SubOptions) (relayUrl : List Char) (ev : EventData)
    (hnone : mapGet s.eventHandlers subId = none) :
    mapGet (subscribe subId f2 h2 o2 (subscribe subId f1 h1 o1 s)).eventHandlers subId
        = some [h1, h2]
    ∧ mapGet (subscribe subId f2 h2 o2 (subscribe subId f1 h1 o1 s)).subscriptions subId
        = some ⟨f2, h2, o2.onEOSE⟩
    ∧ (isExternal h1 = true → isExternal h2 = true →
        (handleEvent relayUrl subId ev (subscribe subId f2 h2 o2 (subscribe subId f1 h1 o1 s))).calls
          = (subscribe subId f2 h2 o2 (subscribe subId f1 h1 o1 s)).calls
            ++ [CallRec.onEvent h1 ev relayUrl, CallRec.onEvent h2 ev relayUrl]) := by
  have e1 : mapGet (subscribe subId f1 h1 o1 s).eventHandlers subId = some [h1] := by
    rw [subscribe_eventHandlers_fresh s subId f1 h1 o1 hnone, mapGet_set]
    simp
  have e2 : mapGet (subscribe subId f2 h2 o2 (subscribe subId f1 h1 o1 s)).eventHandlers subId
      = some [h1, h2] := by
    rw [subscribe_eventHandlers_existing _ subId f2 h2 o2 [h1] e1, mapGet_set]
    simp
  refine ⟨e2, ?_, ?_⟩
  · rw [subscribe_subscriptions, mapGet_set]
    simp
  · intro x1 x2
    have hext : ∀ h ∈ [h1, h2], isExternal h = true := by
      intro h hm
      rcases List.mem_cons.mp hm with rfl | hm
      · exact x1
      · rcases List.mem_cons.mp hm with rfl | hm
        · exact x2
        · cases hm
    rw [handleEvent_external _ subId relayUrl ev [h1, h2] e2 hext]
    simp

theorem c9_witness :
    mapGet (subscribe ("s1".data) {} (Handler.external 2 false) {}
        (subscribe ("s1".data) { limit := some 1 } (Handler.external 1 false) {} initState)).eventHandlers
        ("s1".data)
      = some [Handler.external 1 false, Handler.external 2 false]
    ∧ mapGet (subscribe ("s1".data) {} (Handler.external 2 false) {}
        (subscribe ("s1".data) { limit := some 1 } (Handler.external 1 false) {} initState)).subscriptions
        ("s1".data)
      = some ⟨{}, Handler.external 2 false, none⟩
    ∧ (handleEvent ("r1".data) ("s1".data) ⟨"e".data, "p".data, 1, []⟩
        (subscribe ("s1".data) {} (Handler.external 2 false) {}
          (subscribe ("s1".data) { limit := some 1 } (Handler.external 1 false) {} initState))).calls
      = (subscribe ("s1".data) {} (Handler.external 2 false) {}
          (subscribe ("s1".data) { limit := some 1 } (Handler.external 1 false) {} initState)).calls
        ++ [CallRec.onEvent (Handler.external 1 false) ⟨"e".data, "p".data, 1, []⟩ ("r1".data),
            CallRec.onEvent (Handler.external 2 false) ⟨"e".data, "p".data, 1, []⟩ ("r1".data)] := by
  have h := c9_double_subscribe initState ("s1".data) { limit := some 1 } {}
    (Handler.external 1 false) (Handler.external 2 false) {} {} ("r1".data)
    ⟨"e".data, "p".data, 1, []⟩ rfl
  exact ⟨h.1, h.2.1, h.2.2 rfl rfl⟩

end RelayManager

/-! ## Timed-execution lemmas and claim C3 -/

namespace RelayManager

theorem runHandler_subscriptions (relayUrl : List Char) (ev : EventData) (s : RMState) (h : Handler) :
    (runHandler relayUrl ev s h).subscriptions = s.subscriptions := by
  cases h with
  | external a b => rfl
  | fetchOneTime e u =>
    simp only [runHandler]
    split <;> rfl

theorem foldl_runHandler_subscriptions (relayUrl : List Char) (ev : EventData) :
    ∀ (hs : List Handler) (s : RMState),
    (hs.foldl (runHandler relayUrl ev) s).subscriptions = s.subscriptions := by
  intro hs
  induction hs with
  | nil => intro s; rfl
  | cons h rest ih =>
    intro s
    rw [List.foldl_cons, ih (runHandler relayUrl ev s h), runHandler_subscriptions]

theorem handleEvent_subscriptions (relayUrl subId : List Char) (ev : EventData) (s : RMState) :
    (handleEvent relayUrl subId ev s).subscriptions = s.subscriptions := by
  cases hget : mapGet s.eventHandlers subId with
  | none => simp only [handleEvent, hget]
  | some hs =>
    simp only [handleEvent, hget]
    exact foldl_runHandler_subscriptions relayUrl ev hs s

theorem handleEOSE_subscriptions (relayUrl subId : List Char) (s : RMState) :
    (handleEndOfStoredEvents relayUrl subId s).subscriptions = s.subscriptions := by
  cases hget : mapGet s.subscriptions subId with
  | none => simp only [handleEndOfStoredEvents, hget]
  | some sub =>
    cases heose : sub.onEOSE with
    | none => simp only [handleEndOfStoredEvents, hget, heose]
    | some cb => cases cb <;> simp only [handleEndOfStoredEvents, hget, heose]

theorem unsubscribe_sub_get (k sid : List Char) (s : RMState) :
    mapGet (unsubscribe k s).subscriptions sid
      = if sid = k then none else mapGet s.subscriptions sid := by
  show mapGet (mapDelete s.subscriptions k) sid = _
  exact mapGet_delete s.subscriptions k sid

theorem runTimerAction_sub_or (s : RMState) (a : TimerAction) (sid : List Char) :
    mapGet (runTimerAction s a).subscriptions sid = mapGet s.subscriptions sid
    ∨ mapGet (runTimerAction s a).subscriptions sid = none := by
  cases a with
  | delayedUnsub k =>
    rw [show runTimerAction s (TimerAction.delayedUnsub k) = unsubscribe k s from rfl,
      unsubscribe_sub_get]
    by_cases h : sid = k <;> simp [h]
  | eoseCleanup k e =>
    simp only [runTimerAction]
    split
    · rw [unsubscribe_sub_get]
      by_cases h : sid = k <;> simp [h]
    · left; rfl

theorem runTimerAction_sub_none (s : RMState) (a : TimerAction) (sid : List Char)
    (h : mapGet s.subscriptions sid = none) :
    mapGet (runTimerAction s a).subscriptions sid = none := by
  rcases runTimerAction_sub_or s a sid with h1 | h1
  · rw [h1, h]
  · exact h1

theorem runTimerAction_kills (s : RMState) (a : TimerAction) (sid : List Char)
    (h : a = TimerAction.delayedUnsub sid ∨ ∃ e, a = TimerAction.eoseCleanup sid e) :
    mapGet (runTimerAction s a).subscriptions sid = none := by
  rcases h with rfl | ⟨e, rfl⟩
  · rw [show runTimerAction s (TimerAction.delayedUnsub sid) = unsubscribe sid s from rfl,
      unsubscribe_sub_get]
    simp
  · simp only [runTimerAction]
    split
    · rw [unsubscribe_sub_get]; simp
    · rename_i hhas
      cases hg : mapGet s.subscriptions sid with
      | none => rfl
      | some v => exact absurd (by simp [mapHas, hg]) hhas

theorem foldl_timers_none (sid : List Char) :
    ∀ (l : List Timer) (s : RMState), mapGet s.subscriptions sid = none →
    mapGet ((l.foldl (fun st tm => runTimerAction st tm.action) s)).subscriptions sid = none := by
  intro l
  induction l with
  | nil => intro s h; exact h
  | cons tm rest ih =>
    intro s h
    exact ih _ (runTimerAction_sub_none s tm.action sid h)

theorem foldl_timers_or (sid : List Char) :
    ∀ (l : List Timer) (s : RMState),
    mapGet ((l.foldl (fun st tm => runTimerAction st tm.action) s)).subscriptions sid
        = mapGet s.subscriptions sid
    ∨ mapGet ((l.foldl (fun st tm => runTimerAction st tm.action) s)).subscriptions sid = none := by
  intro l
  induction l with
  | nil => intro s; left; rfl
  | cons tm rest ih =>
    intro s
    rcases runTimerAction_sub_or s tm.action sid with h1 | h1
    · rcases ih (runTimerAction s tm.action) with h2 | h2
      · left; rw [List.foldl_cons, h2, h1]
      · right; rw [List.foldl_cons, h2]
    · right
      rw [List.foldl_cons]
      exact foldl_timers_none sid rest _ h1

theorem foldl_timers_kills (sid : List Char) :
    ∀ (l : List Timer) (s : RMState),
    (∃ tm ∈ l, tm.action = TimerAction.delayedUnsub sid
      ∨ ∃ e, tm.action = TimerAction.eoseCleanup sid e) →
    mapGet ((l.foldl (fun st tm => runTimerAction st tm.action) s)).subscriptions sid = none := by
  intro l
  induction l with
  | nil => rintro s ⟨tm, hm, _⟩; cases hm
  | cons tm rest ih =>
    rintro s ⟨tm', hm, hk⟩
    rcases List.mem_cons.mp hm with rfl | hm
    · rw [List.foldl_cons]
      exact foldl_timers_none sid rest _ (runTimerAction_kills s tm'.action sid hk)
    · rw [List.foldl_cons]
      exact ih _ ⟨tm', hm, hk⟩

theorem advanceClock_none (d : Nat) (s : RMState) (sid : List Char)
    (h : mapGet s.subscriptions sid = none) :
    mapGet (advanceClock d s).subscriptions sid = none := by
  simp only [advanceClock]
  exact foldl_timers_none sid _ _ h

theorem advanceClock_or (d : Nat) (s : RMState) (sid : List Char) :
    mapGet (advanceClock d s).subscriptions sid = mapGet s.subscriptions sid
    ∨ mapGet (advanceClock d s).subscriptions sid = none := by
  simp only [advanceClock]
  exact foldl_timers_or sid _ _

theorem advanceClock_kills (d : Nat) (s : RMState) (sid : List Char)
    (h : ∃ tm ∈ s.timers, tm.fireAt ≤ s.clock + d
      ∧ (tm.action = TimerAction.delayedUnsub sid
          ∨ ∃ e, tm.action = TimerAction.eoseCleanup sid e)) :
    mapGet (advanceClock d s).subscriptions sid = none := by
  obtain ⟨tm, hm, hdue, hk⟩ := h
  simp only [advanceClock]
  apply foldl_timers_kills
  exact ⟨tm, List.mem_filter.mpr ⟨hm, by simpa using hdue⟩, hk⟩

theorem runStep_sub_or (st : Step) (s : RMState) (sid : List Char) :
    mapGet (runStep s st).subscriptions sid = mapGet s.subscriptions sid
    ∨ mapGet (runStep s st).subscriptions sid = none := by
  cases st with
  | msg r m =>
    cases m with
    | event subId ev => left; rw [show runStep s (Step.msg r (InMsg.event subId ev)) = handleEvent r subId ev s from rfl, handleEvent_subscriptions]
    | eose subId => left; rw [show runStep s (Step.msg r (InMsg.eose subId)) = handleEndOfStoredEvents r subId s from rfl, handleEOSE_subscriptions]
    | closed subId => left; rfl
    | auth => left; rfl
  | advance d => exact advanceClock_or d s sid

theorem runSteps_sub_or (sid : List Char) :
    ∀ (steps : List Step) (s : RMState),
    mapGet (runSteps steps s).subscriptions sid = mapGet s.subscriptions sid
    ∨ mapGet (runSteps steps s).subscriptions sid = none := by
  intro steps
  induction steps with
  | nil => intro s; left; rfl
  | cons st rest ih =>
    intro s
    rcases runStep_sub_or st s sid with h1 | h1
    · rcases ih (runStep s st) with h2 | h2
      · left; rw [runSteps, List.foldl_cons] at *; rw [h2, h1]
      · right; rw [runSteps, List.foldl_cons] at *; exact h2
    · right
      rw [runSteps, List.foldl_cons]
      have : ∀ (l : List Step) (t : RMState), mapGet t.subscriptions sid = none →
          mapGet (runSteps l t).subscriptions sid = none := by
        intro l
        induction l with
        | nil => intro t h; exact h
        | cons a b ihb =>
          intro t h
          rcases runStep_sub_or a t sid with g | g
          · exact ihb _ (g.trans h)
          · exact ihb _ g
      exact this rest _ h1

theorem handleEOSE_fetch (relayUrl sid eventId : List Char) (s : RMState) (sub : Subscription)
    (hget : mapGet s.subscriptions sid = some sub)
    (heose : sub.onEOSE = some (EoseCb.fetchEose eventId)) :
    handleEndOfStoredEvents relayUrl sid s
      = { s with timers := s.timers
            ++ [⟨s.clock + 2000, TimerAction.eoseCleanup (fetchSubId eventId) eventId⟩] } := by
  simp only [handleEndOfStoredEvents, hget, heose]

end RelayManager

namespace RelayManager

theorem runSteps_append (a b : List Step) (s : RMState) :
    runSteps (a ++ b) s = runSteps b (runSteps a s) := by
  simp [runSteps, List.foldl_append]

/-- C3 (amended): if at least one relay delivers an EOSE frame for the
subscription created by `fetchEvent`, then — whatever other frames arrive and
however the clock advances before it — once 2000 ms elapse after that EOSE
the registry's subscription map no longer contains the eventId-derived id. -/
theorem c3_amended_eose_cleanup (eventId : List Char) (userCb : Nat) (pre : List Step)
    (relayUrl : List Char) (d : Nat) (hd : 2000 ≤ d) :
    mapGet (runSteps
        (pre ++ [Step.msg relayUrl (InMsg.eose (fetchSubId eventId)), Step.advance d])
        (fetchEvent eventId userCb initState)).subscriptions (fetchSubId eventId) = none := by
  have hinit : mapGet (fetchEvent eventId userCb initState).subscriptions (fetchSubId eventId)
      = some ⟨{ ids := some [eventId], limit := some 1 },
          Handler.fetchOneTime eventId userCb, some (EoseCb.fetchEose eventId)⟩ := by
    rw [show (fetchEvent eventId userCb initState).subscriptions
        = mapSet initState.subscriptions (fetchSubId eventId)
            ⟨{ ids := some [eventId], limit := some 1 },
              Handler.fetchOneTime eventId userCb, some (EoseCb.fetchEose eventId)⟩ from rfl,
      mapGet_set]
    simp
  rw [runSteps_append]
  rcases runSteps_sub_or (fetchSubId eventId) pre (fetchEvent eventId userCb initState) with h2 | h2
  · rw [hinit] at h2
    rw [show runSteps [Step.msg relayUrl (InMsg.eose (fetchSubId eventId)), Step.advance d]
          (runSteps pre (fetchEvent eventId userCb initState))
        = runStep (runStep (runSteps pre (fetchEvent eventId userCb initState))
            (Step.msg relayUrl (InMsg.eose (fetchSubId eventId)))) (Step.advance d) from rfl,
      show runStep (runSteps pre (fetchEvent eventId userCb initState))
            (Step.msg relayUrl (InMsg.eose (fetchSubId eventId)))
        = handleEndOfStoredEvents relayUrl (fetchSubId eventId)
            (runSteps pre (fetchEvent eventId userCb initState)) from rfl,
      handleEOSE_fetch relayUrl (fetchSubId eventId) eventId _ _ h2 rfl]
    show mapGet (advanceClock d _).subscriptions _ = none
    apply advanceClock_kills
    refine ⟨⟨(runSteps pre (fetchEvent eventId userCb initState)).clock + 2000,
      TimerAction.eoseCleanup (fetchSubId eventId) eventId⟩, by simp, by simp; omega,
      Or.inr ⟨eventId, rfl⟩⟩
  · rw [show runSteps [Step.msg relayUrl (InMsg.eose (fetchSubId eventId)), Step.advance d]
          (runSteps pre (fetchEvent eventId userCb initState))
        = runStep (runStep (runSteps pre (fetchEvent eventId userCb initState))
            (Step.msg relayUrl (InMsg.eose (fetchSubId eventId)))) (Step.advance d) from rfl]
    show mapGet (advanceClock d _).subscriptions _ = none
    apply advanceClock_none
    rw [show runStep (runSteps pre (fetchEvent eventId userCb initState))
          (Step.msg relayUrl (InMsg.eose (fetchSubId eventId)))
        = handleEndOfStoredEvents relayUrl (fetchSubId eventId)
            (runSteps pre (fetchEvent eventId userCb initState)) from rfl,
      handleEOSE_subscriptions]
    exact h2

theorem c3_amended_witness :
    mapGet (runSteps
        ([] ++ [Step.msg ("r1".data) (InMsg.eose (fetchSubId ("abc".data))), Step.advance 2500])
        (fetchEvent ("abc".data) 0 initState)).subscriptions (fetchSubId ("abc".data)) = none :=
  c3_amended_eose_cleanup ("abc".data) 0 [] ("r1".data) 2500 (by decide)

/-- C3 counterexample: an execution of `fetchEvent` in which no event and no
EOSE frame ever arrives.  Long after every grace window (10^6 ms) the
eventId-derived id is still in the subscription map, and no timer is pending
that could ever remove it — the claim's `in every execution (including ones
where no relay sends an end-of-stored-events frame)` fails on the code,
because the only cleanup is scheduled from the `onEOSE` callback. -/
theorem c3_counterexample :
    (mapGet (runSteps [Step.advance 1000000]
        (fetchEvent ("abc".data) 0 initState)).subscriptions
      (fetchSubId ("abc".data))).isSome = true
    ∧ (runSteps [Step.advance 1000000] (fetchEvent ("abc".data) 0 initState)).timers = [] := by
  decide

end RelayManager

/-! ## Connection-pool lemmas and claim C4 -/

namespace RelayManager

theorem connectAttempt_result (s : RMState) (rb : List Char × SocketBehavior) :
    (connectAttempt s rb).2.2 = attemptOutcome rb := by
  obtain ⟨url, b⟩ := rb
  cases b with
  | opensAt t =>
    by_cases h : t < 5000 <;>
      simp [connectAttempt, connectToRelay, attemptOutcome, attemptSucceeds, h]
  | errorsAt t =>
    by_cases h : t < 5000 <;>
      simp [connectAttempt, connectToRelay, attemptOutcome, attemptSucceeds, h]
  | silent => simp [connectAttempt, connectToRelay, attemptOutcome, attemptSucceeds]

theorem connectAttempt_time (s : RMState) (rb : List Char × SocketBehavior) :
    (connectAttempt s rb).2.1 = (connectToRelay rb.1 rb.2).1 := by
  obtain ⟨url, b⟩ := rb
  cases b with
  | opensAt t => by_cases h : t < 5000 <;> simp [connectAttempt, connectToRelay, h]
  | errorsAt t => by_cases h : t < 5000 <;> simp [connectAttempt, connectToRelay, h]
  | silent => simp [connectAttempt, connectToRelay]

theorem connectAttempt_conns (s : RMState) (rb : List Char × SocketBehavior) :
    (connectAttempt s rb).1.activeConnections
      = s.activeConnections
        ++ (if attemptSucceeds rb.2 then [Conn.mk rb.1 true] else []) := by
  obtain ⟨url, b⟩ := rb
  cases b with
  | opensAt t =>
    by_cases h : t < 5000 <;>
      simp [connectAttempt, connectToRelay, attemptSucceeds, h]
  | errorsAt t =>
    by_cases h : t < 5000 <;>
      simp [connectAttempt, connectToRelay, attemptSucceeds, h]
  | silent => simp [connectAttempt, connectToRelay, attemptSucceeds]

theorem connectToRelays_results :
    ∀ (relays : List (List Char × SocketBehavior)) (s : RMState),
    (connectToRelays relays s).2.2 = relays.map attemptOutcome := by
  intro relays
  induction relays with
  | nil => intro s; rfl
  | cons rb rest ih =>
    intro s
    simp only [connectToRelays, List.map_cons]
    rw [connectAttempt_result, ih]

theorem connectToRelays_conns :
    ∀ (relays : List (List Char × SocketBehavior)) (s : RMState),
    (connectToRelays relays s).1.activeConnections
      = s.activeConnections
        ++ (relays.filter (fun rb => attemptSucceeds rb.2)).map (fun rb => Conn.mk rb.1 true) := by
  intro relays
  induction relays with
  | nil => intro s; simp [connectToRelays]
  | cons rb rest ih =>
    intro s
    simp only [connectToRelays]
    rw [ih, connectAttempt_conns, List.filter_cons]
    by_cases h : attemptSucceeds rb.2 <;> simp [h]

theorem connectToRelays_settle :
    ∀ (relays : List (List Char × SocketBehavior)) (s : RMState),
    ∀ rb ∈ relays, (connectToRelay rb.1 rb.2).1 ≤ (connectToRelays relays s).2.1 := by
  intro relays
  induction relays with
  | nil => intro s rb hm; cases hm
  | cons hd rest ih =>
    intro s rb hm
    rcases List.mem_cons.mp hm with rfl | hm
    · simp only [connectToRelays]
      rw [← connectAttempt_time s rb]
      exact le_max_left _ _
    · simp only [connectToRelays]
      exact le_trans (ih _ rb hm) (le_max_right _ _)

/-- C4: with every socket's timed behavior given, `connectToRelays` settles
exactly once (the `Promise.allSettled` join), no earlier than the settle time
of each individual attempt; each url's outcome depends only on its own socket
(success exactly when it opens within the 5000 ms per-relay timeout); the
outcome list reports one entry per url, with M successes and N − M failures;
and on an initially empty pool the connected count immediately afterwards is
exactly M. -/
theorem c4_connect_pool (relays : List (List Char × SocketBehavior)) (s : RMState)
    (hempty : s.activeConnections = []) :
    (connectToRelays relays s).2.2 = relays.map attemptOutcome
    ∧ ((connectToRelays relays s).2.2.filter (fun r => r.success)).length
        = (relays.filter (fun rb => attemptSucceeds rb.2)).length
    ∧ ((connectToRelays relays s).2.2.filter (fun r => !r.success)).length
        = relays.length - (relays.filter (fun rb => attemptSucceeds rb.2)).length
    ∧ (∀ rb ∈ relays, (connectToRelay rb.1 rb.2).1 ≤ (connectToRelays relays s).2.1)
    ∧ getConnectedCount (connectToRelays relays s).1
        = (relays.filter (fun rb => attemptSucceeds rb.2)).length := by
  have hres := connectToRelays_results relays s
  have hsucc : ((connectToRelays relays s).2.2.filter (fun r => r.success)).length
      = (relays.filter (fun rb => attemptSucceeds rb.2)).length := by
    rw [hres, List.filter_map]
    rw [List.length_map]
    rfl
  refine ⟨hres, hsucc, ?_, connectToRelays_settle relays s, ?_⟩
  · have htot : ∀ (l : List ConnResult),
        (l.filter (fun r => r.success)).length + (l.filter (fun r => !r.success)).length
          = l.length := by
      intro l
      induction l with
      | nil => rfl
      | cons a b ih =>
        by_cases h : a.success <;> simp [List.filter_cons, h] <;> omega
    have hlen : (connectToRelays relays s).2.2.length = relays.length := by
      rw [hres, List.length_map]
    have := htot (connectToRelays relays s).2.2
    omega
  · rw [getConnectedCount, connectToRelays_conns relays s, hempty]
    simp only [List.nil_append, List.filter_map]
    rw [show ((fun c : Conn => c.wsOpen)
          ∘ fun rb : List Char × SocketBehavior => Conn.mk rb.1 true) = fun _ => true from rfl]
    rw [List.filter_true, List.length_map]

end RelayManager

namespace RelayManager

theorem c4_witness :
    ((connectToRelays
        [("u1".data, SocketBehavior.opensAt 10), ("u2".data, SocketBehavior.errorsAt 5),
         ("u3".data, SocketBehavior.silent), ("u4".data, SocketBehavior.opensAt 6000),
         ("u5".data, SocketBehavior.opensAt 0)] initState).2.2.filter (fun r => r.success)).length = 2
    ∧ getConnectedCount (connectToRelays
        [("u1".data, SocketBehavior.opensAt 10), ("u2".data, SocketBehavior.errorsAt 5),
         ("u3".data, SocketBehavior.silent), ("u4".data, SocketBehavior.opensAt 6000),
         ("u5".data, SocketBehavior.opensAt 0)] initState).1 = 2 := by
  have h := c4_connect_pool
    [("u1".data, SocketBehavior.opensAt 10), ("u2".data, SocketBehavior.errorsAt 5),
     ("u3".data, SocketBehavior.silent), ("u4".data, SocketBehavior.opensAt 6000),
     ("u5".data, SocketBehavior.opensAt 0)] initState rfl
  exact ⟨by rw [h.2.1]; decide, by rw [h.2.2.2.2]; decide⟩

end RelayManager

/-! ## Arithmetic lemmas for the bit-stream view -/

namespace CryptoUtils

theorem listNum_init (w : Nat) :
    ∀ (vs : List Nat) (a : Nat),
    vs.foldl (fun x v => x * 2 ^ w + v) a = a * 2 ^ (w * vs.length) + listNum w vs := by
  intro vs
  induction vs with
  | nil => intro a; simp [listNum]
  | cons v rest ih =>
    intro a
    rw [List.foldl_cons, ih (a * 2 ^ w + v),
      show listNum w (v :: rest) = List.foldl (fun x v => x * 2 ^ w + v) v rest from by
        simp [listNum],
      ih v]
    rw [List.length_cons, Nat.mul_succ, pow_add]
    ring

theorem listNum_cons (w v : Nat) (vs : List Nat) :
    listNum w (v :: vs) = v * 2 ^ (w * vs.length) + listNum w vs := by
  rw [show listNum w (v :: vs) = List.foldl (fun x v => x * 2 ^ w + v) v vs from by
    simp [listNum]]
  exact listNum_init w vs v

theorem listNum_lt (w : Nat) :
    ∀ (vs : List Nat), (∀ v ∈ vs, v < 2 ^ w) → listNum w vs < 2 ^ (w * vs.length) := by
  intro vs
  induction vs with
  | nil => intro _; simp [listNum]
  | cons v rest ih =>
    intro hv
    rw [listNum_cons]
    have h1 : listNum w rest < 2 ^ (w * rest.length) := ih fun x hx => hv x (by simp [hx])
    have h2 : v < 2 ^ w := hv v (by simp)
    calc v * 2 ^ (w * rest.length) + listNum w rest
        < v * 2 ^ (w * rest.length) + 2 ^ (w * rest.length) := by omega
      _ = (v + 1) * 2 ^ (w * rest.length) := by ring
      _ ≤ 2 ^ w * 2 ^ (w * rest.length) := Nat.mul_le_mul_right _ h2
      _ = 2 ^ (w * (rest.length + 1)) := by rw [← pow_add]; ring_nf

theorem mod_mul_add (x v m w : Nat) (hm : 0 < m) (hv : v < w) :
    (x * w + v) % (m * w) = (x % m) * w + v := by
  have h1 : x * w % (m * w) = x % m * w := Nat.mul_mod_mul_right w x m
  have h2 : v % (m * w) = v := Nat.mod_eq_of_lt (lt_of_lt_of_le hv (by nlinarith))
  have h3 : x % m * w + v < m * w := by
    have : x % m < m := Nat.mod_lt _ hm
    have : (x % m + 1) * w ≤ m * w := Nat.mul_le_mul_right _ (by omega)
    nlinarith
  rw [Nat.add_mod, h1, h2, Nat.mod_eq_of_lt h3]

theorem int32_mul32 (a : Nat) : int32 (a * 32) = a % 2 ^ 27 * 32 := by
  rw [int32, show (4294967296 : Nat) = 2 ^ 27 * 32 from by norm_num]
  exact Nat.mul_mod_mul_right 32 a (2 ^ 27)

theorem int32_mul256 (a : Nat) : int32 (a * 256) = a % 2 ^ 24 * 256 := by
  rw [int32, show (4294967296 : Nat) = 2 ^ 24 * 256 from by norm_num]
  exact Nat.mul_mod_mul_right 256 a (2 ^ 24)

theorem lor_eq_add_pow (w a v : Nat) (hv : v < 2 ^ w) :
    Nat.lor (a * 2 ^ w) v = a * 2 ^ w + v := by
  have h := Nat.mul_add_lt_is_or hv a
  rw [Nat.mul_comm (2 ^ w) a] at h
  exact h.symm

theorem acc2_eq5 (acc v : Nat) (hv : v < 32) :
    Nat.lor (int32 (acc * 32)) v = acc % 2 ^ 27 * 32 + v := by
  rw [int32_mul32]
  have := lor_eq_add_pow 5 (acc % 2 ^ 27) v (by norm_num [hv])
  norm_num at this
  exact this

theorem acc2_eq8 (acc v : Nat) (hv : v < 256) :
    Nat.lor (int32 (acc * 256)) v = acc % 2 ^ 24 * 256 + v := by
  rw [int32_mul256]
  have := lor_eq_add_pow 8 (acc % 2 ^ 24) v (by norm_num [hv])
  norm_num at this
  exact this

theorem pending5 (acc v bits : Nat) (hb : bits ≤ 27) (hv : v < 32) :
    Nat.lor (int32 (acc * 32)) v % 2 ^ (bits + 5) = acc % 2 ^ bits * 32 + v := by
  rw [acc2_eq5 acc v hv, pow_add, show (2 : Nat) ^ 5 = 32 from by norm_num,
    mod_mul_add _ _ _ _ (Nat.pos_pow_of_pos bits (by norm_num)) hv,
    Nat.mod_mod_of_dvd _ (pow_dvd_pow 2 hb)]

theorem pending8 (acc v bits : Nat) (hb : bits ≤ 24) (hv : v < 256) :
    Nat.lor (int32 (acc * 256)) v % 2 ^ (bits + 8) = acc % 2 ^ bits * 256 + v := by
  rw [acc2_eq8 acc v hv, pow_add, show (2 : Nat) ^ 8 = 256 from by norm_num,
    mod_mul_add _ _ _ _ (Nat.pos_pow_of_pos bits (by norm_num)) hv,
    Nat.mod_mod_of_dvd _ (pow_dvd_pow 2 hb)]

end CryptoUtils

namespace CryptoUtils

theorem mod_pow_div (n a b : Nat) : n % 2 ^ (a + b) / 2 ^ a = n / 2 ^ a % 2 ^ b := by
  rw [pow_add]
  exact Nat.mod_mul_right_div_self n (2 ^ a) (2 ^ b)

theorem chunk8Num_low (n len : Nat) (h : len < 8) : chunk8Num n len = [] := by
  conv_lhs => rw [chunk8Num]
  rw [dif_neg (by omega)]

theorem chunk8Num_step (n len : Nat) (h : 8 ≤ len) :
    chunk8Num n len = ((n / 2 ^ (len - 8)) % 256) :: chunk8Num n (len - 8) := by
  conv_lhs => rw [chunk8Num]
  rw [dif_pos h]

theorem chunk5Num_zero (n : Nat) : chunk5Num n 0 = [] := by
  conv_lhs => rw [chunk5Num]
  norm_num

theorem chunk5Num_pad (n len : Nat) (h1 : 0 < len) (h2 : len < 5) :
    chunk5Num n len = [n % 2 ^ len * 2 ^ (5 - len)] := by
  conv_lhs => rw [chunk5Num]
  rw [dif_neg (by omega), if_pos h1]

theorem chunk5Num_step (n len : Nat) (h : 5 ≤ len) :
    chunk5Num n len = ((n / 2 ^ (len - 5)) % 32) :: chunk5Num n (len - 5) := by
  conv_lhs => rw [chunk5Num]
  rw [dif_pos h]

theorem chunk8Num_mod : ∀ (len n : Nat), chunk8Num (n % 2 ^ len) len = chunk8Num n len := by
  intro len
  induction len using Nat.strong_induction_on with
  | _ len ih =>
    intro n
    by_cases h : 8 ≤ len
    · rw [chunk8Num_step _ len h, chunk8Num_step n len h]
      have hsplit : len = (len - 8) + 8 := by omega
      congr 1
      · rw [hsplit, Nat.add_sub_cancel, mod_pow_div n (len - 8) 8]
        rw [show (2 : Nat) ^ 8 = 256 from by norm_num, Nat.mod_mod_of_dvd _ dvd_rfl]
      · calc chunk8Num (n % 2 ^ len) (len - 8)
            = chunk8Num (n % 2 ^ len % 2 ^ (len - 8)) (len - 8) :=
              (ih (len - 8) (by omega) (n % 2 ^ len)).symm
          _ = chunk8Num (n % 2 ^ (len - 8)) (len - 8) := by
              rw [Nat.mod_mod_of_dvd _ (pow_dvd_pow 2 (by omega))]
          _ = chunk8Num n (len - 8) := ih (len - 8) (by omega) n
    · rw [chunk8Num_low _ len (by omega), chunk8Num_low n len (by omega)]

theorem chunk5Num_mod : ∀ (len n : Nat), chunk5Num (n % 2 ^ len) len = chunk5Num n len := by
  intro len
  induction len using Nat.strong_induction_on with
  | _ len ih =>
    intro n
    by_cases h : 5 ≤ len
    · rw [chunk5Num_step _ len h, chunk5Num_step n len h]
      have hsplit : len = (len - 5) + 5 := by omega
      congr 1
      · rw [hsplit, Nat.add_sub_cancel, mod_pow_div n (len - 5) 5]
        rw [show (2 : Nat) ^ 5 = 32 from by norm_num, Nat.mod_mod_of_dvd _ dvd_rfl]
      · calc chunk5Num (n % 2 ^ len) (len - 5)
            = chunk5Num (n % 2 ^ len % 2 ^ (len - 5)) (len - 5) :=
              (ih (len - 5) (by omega) (n % 2 ^ len)).symm
          _ = chunk5Num (n % 2 ^ (len - 5)) (len - 5) := by
              rw [Nat.mod_mod_of_dvd _ (pow_dvd_pow 2 (by omega))]
          _ = chunk5Num n (len - 5) := ih (len - 5) (by omega) n
    · by_cases h0 : 0 < len
      · rw [chunk5Num_pad _ len h0 (by omega), chunk5Num_pad n len h0 (by omega),
          Nat.mod_mod_of_dvd _ dvd_rfl]
      · have : len = 0 := by omega
        subst this
        rw [chunk5Num_zero, chunk5Num_zero]

theorem emitBytesAux_low (acc : Nat) : ∀ (fuel bits : Nat), bits < 8 →
    emitBytesAux acc fuel bits = ([], bits) := by
  intro fuel bits h
  cases fuel with
  | zero => rfl
  | succ f => simp only [emitBytesAux]; rw [if_neg (by omega)]

theorem emitBytes_low (acc bits : Nat) (h : bits < 8) : emitBytes acc bits = ([], bits) :=
  emitBytesAux_low acc bits bits h

theorem emitBytes_mid (acc bits : Nat) (h1 : 8 ≤ bits) (h2 : bits < 16) :
    emitBytes acc bits = ([(acc / 2 ^ (bits - 8)) % 256], bits - 8) := by
  obtain ⟨f, hf⟩ : ∃ f, bits = f + 1 := ⟨bits - 1, by omega⟩
  rw [emitBytes, hf]
  simp only [emitBytesAux]
  rw [if_pos (by omega), emitBytesAux_low acc f (f + 1 - 8) (by omega), ← hf]

theorem emitFivesAux_low (acc : Nat) : ∀ (fuel bits : Nat), bits < 5 →
    emitFivesAux acc fuel bits = ([], bits) := by
  intro fuel bits h
  cases fuel with
  | zero => rfl
  | succ f => simp only [emitFivesAux]; rw [if_neg (by omega)]

theorem emitFivesAux_mid1 (acc fuel bits : Nat) (h1 : 5 ≤ bits) (h2 : bits < 10)
    (hf : 1 ≤ fuel) :
    emitFivesAux acc fuel bits = ([(acc / 2 ^ (bits - 5)) % 32], bits - 5) := by
  obtain ⟨f, hf2⟩ := Nat.exists_eq_succ_of_ne_zero (show fuel ≠ 0 by omega)
  rw [hf2]
  simp only [emitFivesAux]
  rw [if_pos h1, emitFivesAux_low acc f (bits - 5) (by omega)]

theorem emitFives_low (acc bits : Nat) (h : bits < 5) : emitFives acc bits = ([], bits) :=
  emitFivesAux_low acc bits bits h

theorem emitFives_mid1 (acc bits : Nat) (h1 : 5 ≤ bits) (h2 : bits < 10) :
    emitFives acc bits = ([(acc / 2 ^ (bits - 5)) % 32], bits - 5) :=
  emitFivesAux_mid1 acc bits bits h1 h2 (by omega)

theorem emitFives_mid2 (acc bits : Nat) (h1 : 10 ≤ bits) (h2 : bits < 15) :
    emitFives acc bits
      = ([(acc / 2 ^ (bits - 5)) % 32, (acc / 2 ^ (bits - 10)) % 32], bits - 10) := by
  obtain ⟨f, hf⟩ : ∃ f, bits = f + 1 := ⟨bits - 1, by omega⟩
  rw [emitFives, hf]
  simp only [emitFivesAux]
  rw [if_pos (by omega), emitFivesAux_mid1 acc f (f + 1 - 5) (by omega) (by omega) (by omega),
    ← hf]
  have e : bits - 5 - 5 = bits - 10 := by omega
  rw [e]

theorem conv5to8_cons (v : Nat) (rest : List Nat) (acc bits : Nat) :
    conv5to8 (v :: rest) acc bits
      = (emitBytes (Nat.lor (int32 (acc * 32)) v) (bits + 5)).1
        ++ conv5to8 rest (Nat.lor (int32 (acc * 32)) v)
            (emitBytes (Nat.lor (int32 (acc * 32)) v) (bits + 5)).2 := rfl

theorem conv8to5_cons (v : Nat) (rest : List Nat) (acc bits : Nat) :
    conv8to5 (v :: rest) acc bits
      = (emitFives (Nat.lor (int32 (acc * 256)) v) (bits + 8)).1
        ++ conv8to5 rest (Nat.lor (int32 (acc * 256)) v)
            (emitFives (Nat.lor (int32 (acc * 256)) v) (bits + 8)).2 := rfl

end CryptoUtils


namespace CryptoUtils

theorem conv5to8_spec :
    ∀ (vs : List Nat) (acc bits : Nat), bits < 8 → (∀ v ∈ vs, v < 32) →
    conv5to8 vs acc bits
      = chunk8Num (acc % 2 ^ bits * 2 ^ (5 * vs.length) + listNum 5 vs)
          (bits + 5 * vs.length) := by
  intro vs
  induction vs with
  | nil =>
    intro acc bits hb _
    rw [show conv5to8 [] acc bits = [] from rfl]
    rw [chunk8Num_low _ _ (by simpa using hb)]
  | cons v rest ih =>
    intro acc bits hb hv
    have hv0 : v < 32 := hv v (by simp)
    have hvr : ∀ x ∈ rest, x < 32 := fun x hx => hv x (by simp [hx])
    rw [conv5to8_cons]
    set a2 := Nat.lor (int32 (acc * 32)) v with ha2
    have hpend : a2 % 2 ^ (bits + 5) = acc % 2 ^ bits * 32 + v :=
      pending5 acc v bits (by omega) hv0
    have hr : listNum 5 rest < 2 ^ (5 * rest.length) := listNum_lt 5 rest hvr
    have hnum : acc % 2 ^ bits * 2 ^ (5 * (v :: rest).length) + listNum 5 (v :: rest)
        = a2 % 2 ^ (bits + 5) * 2 ^ (5 * rest.length) + listNum 5 rest := by
      rw [hpend, listNum_cons, List.length_cons,
        show 5 * (rest.length + 1) = 5 * rest.length + 5 from by ring, pow_add,
        show (2 : Nat) ^ 5 = 32 from by norm_num]
      ring
    rw [hnum]
    by_cases hcase : bits < 3
    · rw [emitBytes_low a2 (bits + 5) (by omega)]
      simp only [List.nil_append]
      rw [ih a2 (bits + 5) (by omega) hvr]
      congr 1
      rw [List.length_cons]
      ring
    · rw [emitBytes_mid a2 (bits + 5) (by omega) (by omega)]
      have e58 : bits + 5 - 8 = bits - 3 := by omega
      rw [e58]
      simp only [List.singleton_append]
      rw [ih a2 (bits - 3) (by omega) hvr]
      rw [List.length_cons,
        show bits + 5 * (rest.length + 1) = (bits - 3 + 5 * rest.length) + 8 from by omega]
      conv_rhs => rw [chunk8Num_step
        (a2 % 2 ^ (bits + 5) * 2 ^ (5 * rest.length) + listNum 5 rest)
        ((bits - 3 + 5 * rest.length) + 8) (by omega)]
      rw [Nat.add_sub_cancel]
      have hq : (a2 % 2 ^ (bits + 5) * 2 ^ (5 * rest.length) + listNum 5 rest)
            / 2 ^ (bits - 3 + 5 * rest.length)
          = a2 / 2 ^ (bits - 3) % 256 := by
        rw [show (2 : Nat) ^ (bits - 3 + 5 * rest.length)
            = 2 ^ (5 * rest.length) * 2 ^ (bits - 3) from by
          rw [← pow_add]; congr 1; omega,
          ← Nat.div_div_eq_div_mul]
        have h1 : (a2 % 2 ^ (bits + 5) * 2 ^ (5 * rest.length) + listNum 5 rest)
              / 2 ^ (5 * rest.length)
            = a2 % 2 ^ (bits + 5) := by
          rw [Nat.add_comm,
            Nat.add_mul_div_right _ _ (Nat.pos_pow_of_pos (5 * rest.length) (by norm_num)),
            Nat.div_eq_of_lt hr]
          omega
        rw [h1, show bits + 5 = (bits - 3) + 8 from by omega, mod_pow_div a2 (bits - 3) 8]
        norm_num
      congr 1
      · rw [hq, Nat.mod_mod_of_dvd _ dvd_rfl]
      · rw [← chunk8Num_mod (bits - 3 + 5 * rest.length)
            (a2 % 2 ^ (bits - 3) * 2 ^ (5 * rest.length) + listNum 5 rest),
          ← chunk8Num_mod (bits - 3 + 5 * rest.length)
            (a2 % 2 ^ (bits + 5) * 2 ^ (5 * rest.length) + listNum 5 rest)]
        congr 1
        rw [pow_add,
          mod_mul_add (a2 % 2 ^ (bits - 3)) (listNum 5 rest) (2 ^ (bits - 3))
            (2 ^ (5 * rest.length)) (Nat.pos_pow_of_pos _ (by norm_num)) hr,
          mod_mul_add (a2 % 2 ^ (bits + 5)) (listNum 5 rest) (2 ^ (bits - 3))
            (2 ^ (5 * rest.length)) (Nat.pos_pow_of_pos _ (by norm_num)) hr,
          Nat.mod_mod_of_dvd _ dvd_rfl,
          Nat.mod_mod_of_dvd _ (pow_dvd_pow 2 (by omega : bits - 3 ≤ bits + 5))]

end CryptoUtils

namespace CryptoUtils

theorem numer_div (q r e k : Nat) (hr : r < 2 ^ e) :
    (q * 2 ^ e + r) / 2 ^ (k + e) = q / 2 ^ k := by
  rw [show (2 : Nat) ^ (k + e) = 2 ^ e * 2 ^ k from by rw [← pow_add]; congr 1; omega,
    ← Nat.div_div_eq_div_mul]
  congr 1
  rw [Nat.add_comm, Nat.add_mul_div_right _ _ (Nat.pos_pow_of_pos e (by norm_num)),
    Nat.div_eq_of_lt hr]
  omega

theorem numer_mod (q r e k : Nat) (hr : r < 2 ^ e) :
    (q * 2 ^ e + r) % 2 ^ (k + e) = q % 2 ^ k * 2 ^ e + r := by
  rw [show (2 : Nat) ^ (k + e) = 2 ^ k * 2 ^ e from by rw [← pow_add]]
  exact mod_mul_add q r (2 ^ k) (2 ^ e) (Nat.pos_pow_of_pos _ (by norm_num)) hr

theorem conv8to5_spec :
    ∀ (vs : List Nat) (acc bits : Nat), bits < 5 → (∀ v ∈ vs, v < 256) →
    conv8to5 vs acc bits
      = chunk5Num (acc % 2 ^ bits * 2 ^ (8 * vs.length) + listNum 8 vs)
          (bits + 8 * vs.length) := by
  intro vs
  induction vs with
  | nil =>
    intro acc bits hb _
    rw [show conv8to5 [] acc bits
        = if 0 < bits then [int32 (acc * 2 ^ (5 - bits)) % 32] else [] from rfl]
    simp only [List.length_nil, Nat.mul_zero, pow_zero, Nat.mul_one,
      show listNum 8 [] = 0 from rfl, Nat.add_zero]
    by_cases h0 : 0 < bits
    · rw [if_pos h0, chunk5Num_pad _ bits h0 hb, Nat.mod_mod_of_dvd _ dvd_rfl]
      congr 1
      rw [int32, Nat.mod_mod_of_dvd _ (by norm_num : (32 : Nat) ∣ 4294967296),
        show (32 : Nat) = 2 ^ bits * 2 ^ (5 - bits) from by
          rw [← pow_add, show bits + (5 - bits) = 5 from by omega]; norm_num]
      exact Nat.mul_mod_mul_right (2 ^ (5 - bits)) acc (2 ^ bits)
    · rw [if_neg h0, show bits = 0 from by omega, chunk5Num_zero]
  | cons v rest ih =>
    intro acc bits hb hv
    have hv0 : v < 256 := hv v (by simp)
    have hvr : ∀ x ∈ rest, x < 256 := fun x hx => hv x (by simp [hx])
    rw [conv8to5_cons]
    set a2 := Nat.lor (int32 (acc * 256)) v with ha2
    have hpend : a2 % 2 ^ (bits + 8) = acc % 2 ^ bits * 256 + v :=
      pending8 acc v bits (by omega) hv0
    have hr : listNum 8 rest < 2 ^ (8 * rest.length) := listNum_lt 8 rest hvr
    have hnum : acc % 2 ^ bits * 2 ^ (8 * (v :: rest).length) + listNum 8 (v :: rest)
        = a2 % 2 ^ (bits + 8) * 2 ^ (8 * rest.length) + listNum 8 rest := by
      rw [hpend, listNum_cons, List.length_cons,
        show 8 * (rest.length + 1) = 8 * rest.length + 8 from by ring, pow_add,
        show (2 : Nat) ^ 8 = 256 from by norm_num]
      ring
    rw [hnum, List.length_cons]
    have hhead1 : (a2 % 2 ^ (bits + 8) * 2 ^ (8 * rest.length) + listNum 8 rest)
          / 2 ^ (bits + 3 + 8 * rest.length) % 32
        = a2 / 2 ^ (bits + 3) % 32 := by
      rw [show bits + 3 + 8 * rest.length = bits + 3 + 8 * rest.length from rfl]
      rw [numer_div (a2 % 2 ^ (bits + 8)) (listNum 8 rest) (8 * rest.length) (bits + 3) hr]
      rw [show bits + 8 = bits + 3 + 5 from by omega, mod_pow_div a2 (bits + 3) 5]
      rw [show (2 : Nat) ^ 5 = 32 from by norm_num, Nat.mod_mod_of_dvd _ dvd_rfl]
    by_cases hcase : bits < 2
    · rw [emitFives_mid1 a2 (bits + 8) (by omega) (by omega)]
      have e85 : bits + 8 - 5 = bits + 3 := by omega
      rw [e85]
      simp only [List.singleton_append]
      rw [ih a2 (bits + 3) (by omega) hvr]
      rw [show bits + 8 * (rest.length + 1) = (bits + 3 + 8 * rest.length) + 5 from by omega]
      conv_rhs => rw [chunk5Num_step
        (a2 % 2 ^ (bits + 8) * 2 ^ (8 * rest.length) + listNum 8 rest)
        ((bits + 3 + 8 * rest.length) + 5) (by omega)]
      rw [Nat.add_sub_cancel]
      congr 1
      · rw [hhead1]
      · rw [← chunk5Num_mod (bits + 3 + 8 * rest.length)
            (a2 % 2 ^ (bits + 3) * 2 ^ (8 * rest.length) + listNum 8 rest),
          ← chunk5Num_mod (bits + 3 + 8 * rest.length)
            (a2 % 2 ^ (bits + 8) * 2 ^ (8 * rest.length) + listNum 8 rest)]
        congr 1
        rw [numer_mod (a2 % 2 ^ (bits + 3)) (listNum 8 rest) (8 * rest.length) (bits + 3) hr,
          numer_mod (a2 % 2 ^ (bits + 8)) (listNum 8 rest) (8 * rest.length) (bits + 3) hr,
          Nat.mod_mod_of_dvd _ dvd_rfl,
          Nat.mod_mod_of_dvd _ (pow_dvd_pow 2 (by omega : bits + 3 ≤ bits + 8))]
    · rw [emitFives_mid2 a2 (bits + 8) (by omega) (by omega)]
      have e85 : bits + 8 - 5 = bits + 3 := by omega
      have e810 : bits + 8 - 10 = bits - 2 := by omega
      rw [e85, e810]
      simp only [List.cons_append, List.nil_append]
      rw [ih a2 (bits - 2) (by omega) hvr]
      rw [show bits + 8 * (rest.length + 1) = (bits + 3 + 8 * rest.length) + 5 from by omega]
      conv_rhs => rw [chunk5Num_step
        (a2 % 2 ^ (bits + 8) * 2 ^ (8 * rest.length) + listNum 8 rest)
        ((bits + 3 + 8 * rest.length) + 5) (by omega)]
      rw [Nat.add_sub_cancel]
      rw [show bits + 3 + 8 * rest.length = (bits - 2 + 8 * rest.length) + 5 from by omega]
      conv_rhs => rw [chunk5Num_step
        (a2 % 2 ^ (bits + 8) * 2 ^ (8 * rest.length) + listNum 8 rest)
        ((bits - 2 + 8 * rest.length) + 5) (by omega)]
      rw [Nat.add_sub_cancel]
      congr 1
      · rw [show (bits - 2 + 8 * rest.length) + 5 = bits + 3 + 8 * rest.length from by omega,
          hhead1]
      congr 1
      · rw [numer_div (a2 % 2 ^ (bits + 8)) (listNum 8 rest) (8 * rest.length) (bits - 2) hr]
        rw [show bits + 8 = bits - 2 + 10 from by omega, mod_pow_div a2 (bits - 2) 10]
        rw [Nat.mod_mod_of_dvd _ (by norm_num : (32 : Nat) ∣ 2 ^ 10)]
      · rw [← chunk5Num_mod (bits - 2 + 8 * rest.length)
            (a2 % 2 ^ (bits - 2) * 2 ^ (8 * rest.length) + listNum 8 rest),
          ← chunk5Num_mod (bits - 2 + 8 * rest.length)
            (a2 % 2 ^ (bits + 8) * 2 ^ (8 * rest.length) + listNum 8 rest)]
        congr 1
        rw [numer_mod (a2 % 2 ^ (bits - 2)) (listNum 8 rest) (8 * rest.length) (bits - 2) hr,
          numer_mod (a2 % 2 ^ (bits + 8)) (listNum 8 rest) (8 * rest.length) (bits - 2) hr,
          Nat.mod_mod_of_dvd _ dvd_rfl,
          Nat.mod_mod_of_dvd _ (pow_dvd_pow 2 (by omega : bits - 2 ≤ bits + 8))]

end CryptoUtils

namespace CryptoUtils

theorem mod_pow_decomp (x a b : Nat) :
    x % 2 ^ (a + b) = x / 2 ^ a % 2 ^ b * 2 ^ a + x % 2 ^ a := by
  rw [pow_add, Nat.mod_mul]
  ring

theorem chunk5Num_lt : ∀ (len n : Nat), ∀ g ∈ chunk5Num n len, g < 32 := by
  intro len
  induction len using Nat.strong_induction_on with
  | _ len ih =>
    intro n g hg
    by_cases h : 5 ≤ len
    · rw [chunk5Num_step n len h] at hg
      rcases List.mem_cons.mp hg with rfl | hg
      · exact Nat.mod_lt _ (by norm_num)
      · exact ih (len - 5) (by omega) n g hg
    · by_cases h0 : 0 < len
      · rw [chunk5Num_pad n len h0 (by omega)] at hg
        have hgx := List.mem_singleton.mp hg
        subst hgx
        calc n % 2 ^ len * 2 ^ (5 - len)
            < 2 ^ len * 2 ^ (5 - len) :=
              mul_lt_mul_of_pos_right (Nat.mod_lt _ (Nat.pos_pow_of_pos _ (by norm_num)))
                (Nat.pos_pow_of_pos _ (by norm_num))
          _ = 32 := by
              rw [← pow_add, show len + (5 - len) = 5 from by omega]; norm_num
      · rw [show len = 0 from by omega, chunk5Num_zero n] at hg
        cases hg

theorem chunk5Num_length : ∀ (len n : Nat), (chunk5Num n len).length = (len + 4) / 5 := by
  intro len
  induction len using Nat.strong_induction_on with
  | _ len ih =>
    intro n
    by_cases h : 5 ≤ len
    · rw [chunk5Num_step n len h, List.length_cons, ih (len - 5) (by omega) n]
      omega
    · by_cases h0 : 0 < len
      · rw [chunk5Num_pad n len h0 (by omega)]
        rw [List.length_singleton]
        omega
      · rw [show len = 0 from by omega, chunk5Num_zero n]
        rfl

theorem listNum_chunk5 : ∀ (len n : Nat),
    listNum 5 (chunk5Num n len) = n % 2 ^ len * 2 ^ ((5 - len % 5) % 5) := by
  intro len
  induction len using Nat.strong_induction_on with
  | _ len ih =>
    intro n
    by_cases h : 5 ≤ len
    · rw [chunk5Num_step n len h, listNum_cons, ih (len - 5) (by omega) n,
        chunk5Num_length (len - 5) n]
      have hpad : (5 - (len - 5) % 5) % 5 = (5 - len % 5) % 5 := by omega
      rw [hpad]
      have hexp : 5 * ((len - 5 + 4) / 5) = (len - 5) + (5 - len % 5) % 5 := by omega
      rw [hexp, pow_add]
      have hd := mod_pow_decomp n (len - 5) 5
      rw [show (len - 5) + 5 = len from by omega] at hd
      rw [hd, show (32 : Nat) = 2 ^ 5 from by norm_num]
      ring
    · by_cases h0 : 0 < len
      · rw [chunk5Num_pad n len h0 (by omega),
          show listNum 5 [n % 2 ^ len * 2 ^ (5 - len)] = n % 2 ^ len * 2 ^ (5 - len) from by
            simp [listNum]]
        congr 2
        omega
      · rw [show len = 0 from by omega, chunk5Num_zero n]
        simp [listNum, Nat.mod_one]

theorem chunk8_shift : ∀ (L m pad : Nat), pad < 8 → L % 8 = 0 →
    chunk8Num (m * 2 ^ pad) (L + pad) = chunk8Num m L := by
  intro L
  induction L using Nat.strong_induction_on with
  | _ L ih =>
    intro m pad hpad hL
    by_cases h : 8 ≤ L
    · rw [chunk8Num_step m L h]
      rw [show L + pad = ((L - 8) + pad) + 8 from by omega]
      rw [chunk8Num_step (m * 2 ^ pad) (((L - 8) + pad) + 8) (by omega), Nat.add_sub_cancel]
      congr 1
      · congr 1
        rw [show (2 : Nat) ^ ((L - 8) + pad) = 2 ^ pad * 2 ^ (L - 8) from by
            rw [← pow_add]; congr 1; omega,
          ← Nat.div_div_eq_div_mul,
          Nat.mul_div_cancel _ (Nat.pos_pow_of_pos pad (by norm_num))]
      · exact ih (L - 8) (by omega) m pad hpad (by omega)
    · have hz : L = 0 := by omega
      subst hz
      rw [Nat.zero_add, chunk8Num_low _ pad hpad, chunk8Num_low m 0 (by norm_num)]

theorem chunk8_listNum : ∀ (bytes : List Nat), (∀ b ∈ bytes, b < 256) →
    chunk8Num (listNum 8 bytes) (8 * bytes.length) = bytes := by
  intro bytes
  induction bytes with
  | nil =>
    intro _
    rw [show listNum 8 [] = 0 from rfl]
    exact chunk8Num_low 0 0 (by norm_num)
  | cons b rest ih =>
    intro hb
    have hb0 : b < 256 := hb b (by simp)
    have hbr : ∀ x ∈ rest, x < 256 := fun x hx => hb x (by simp [hx])
    have hr : listNum 8 rest < 2 ^ (8 * rest.length) := listNum_lt 8 rest hbr
    rw [List.length_cons, listNum_cons,
      show 8 * (rest.length + 1) = 8 * rest.length + 8 from by ring]
    rw [chunk8Num_step _ _ (by omega), Nat.add_sub_cancel]
    congr 1
    · rw [Nat.add_comm (b * 2 ^ (8 * rest.length)) (listNum 8 rest),
        Nat.add_mul_div_right _ _ (Nat.pos_pow_of_pos _ (by norm_num)),
        Nat.div_eq_of_lt hr, Nat.zero_add, Nat.mod_eq_of_lt hb0]
    · rw [← chunk8Num_mod (8 * rest.length) (b * 2 ^ (8 * rest.length) + listNum 8 rest),
        Nat.add_comm (b * 2 ^ (8 * rest.length)) (listNum 8 rest),
        Nat.add_mul_mod_self_right, Nat.mod_eq_of_lt hr]
      exact ih hbr

theorem conv_round (bytes : List Nat) (hb : ∀ b ∈ bytes, b < 256) :
    conv5to8 (conv8to5 bytes 0 0) 0 0 = bytes := by
  have h1 : conv8to5 bytes 0 0 = chunk5Num (listNum 8 bytes) (8 * bytes.length) := by
    have h := conv8to5_spec bytes 0 0 (by norm_num) hb
    simpa using h
  have hall : ∀ g ∈ conv8to5 bytes 0 0, g < 32 := by
    rw [h1]; exact chunk5Num_lt (8 * bytes.length) (listNum 8 bytes)
  have h2 := conv5to8_spec (conv8to5 bytes 0 0) 0 0 (by norm_num) hall
  rw [h2]
  norm_num
  rw [h1, listNum_chunk5 (8 * bytes.length) (listNum 8 bytes),
    chunk5Num_length (8 * bytes.length) (listNum 8 bytes),
    Nat.mod_eq_of_lt (listNum_lt 8 bytes hb),
    show 5 * ((8 * bytes.length + 4) / 5)
      = 8 * bytes.length + (5 - (8 * bytes.length) % 5) % 5 from by omega,
    chunk8_shift (8 * bytes.length) (listNum 8 bytes) _ (by omega) (by omega)]
  exact chunk8_listNum bytes hb

end CryptoUtils

/-! ## String-level lemmas for the codec claims -/

namespace CryptoUtils

theorem hexDigitVal_isSome {c : Char} (hc : c ∈ HEX_DIGITS) : (hexDigitVal c).isSome = true :=
  (by decide : ∀ x ∈ HEX_DIGITS, (hexDigitVal x).isSome = true) c hc

theorem hexDigitVal_lt {c : Char} (hc : c ∈ HEX_DIGITS) : (hexDigitVal c).getD 0 < 16 :=
  (by decide : ∀ x ∈ HEX_DIGITS, (hexDigitVal x).getD 0 < 16) c hc

theorem hexDigitChar_val {c : Char} (hc : c ∈ HEX_DIGITS) :
    hexDigitChar ((hexDigitVal c).getD 0) = c :=
  (by decide : ∀ x ∈ HEX_DIGITS, hexDigitChar ((hexDigitVal x).getD 0) = x) c hc

theorem hexByte_parse (a b : Char) (ha : a ∈ HEX_DIGITS) (hb : b ∈ HEX_DIGITS) :
    hexByte (parseHexPair a b) = [a, b] ∧ parseHexPair a b < 256 := by
  obtain ⟨x, hx⟩ := Option.isSome_iff_exists.mp (hexDigitVal_isSome ha)
  obtain ⟨y, hy⟩ := Option.isSome_iff_exists.mp (hexDigitVal_isSome hb)
  have hxl : x < 16 := by have h := hexDigitVal_lt ha; rw [hx] at h; simpa using h
  have hyl : y < 16 := by have h := hexDigitVal_lt hb; rw [hy] at h; simpa using h
  have hax : hexDigitChar x = a := by
    have h := hexDigitChar_val ha; rw [hx] at h; simpa using h
  have hby : hexDigitChar y = b := by
    have h := hexDigitChar_val hb; rw [hy] at h; simpa using h
  have hp : parseHexPair a b = 16 * x + y := by
    simp only [parseHexPair, hx, hy]
  rw [hp]
  refine ⟨?_, by omega⟩
  rw [hexByte, show (16 * x + y) / 16 % 16 = x from by omega,
    show (16 * x + y) % 16 = y from by omega, hax, hby]

theorem hexPairs_inv :
    ∀ (n : Nat) (L : List Char), L.length ≤ n → (∀ c ∈ L, c ∈ HEX_DIGITS) →
    L.length % 2 = 0 →
    bytesToHex (hexPairs L) = L ∧ (∀ b ∈ hexPairs L, b < 256)
      ∧ 2 * (hexPairs L).length = L.length := by
  intro n
  induction n with
  | zero =>
    intro L hn _ _
    have : L = [] := List.eq_nil_of_length_eq_zero (by omega)
    subst this
    refine ⟨rfl, ?_, rfl⟩
    intro b hb
    rw [show hexPairs [] = [] from rfl] at hb
    cases hb
  | succ n ih =>
    intro L hn hhex heven
    match L with
    | [] =>
      refine ⟨rfl, ?_, rfl⟩
      intro b hb
      rw [show hexPairs [] = [] from rfl] at hb
      cases hb
    | [a] => simp at heven
    | a :: b :: rest =>
      have ha : a ∈ HEX_DIGITS := hhex a (by simp)
      have hb : b ∈ HEX_DIGITS := hhex b (by simp)
      have hrest : ∀ c ∈ rest, c ∈ HEX_DIGITS := fun c hc => hhex c (by simp [hc])
      have hlen : rest.length ≤ n := by simp at hn; omega
      have hev : rest.length % 2 = 0 := by simp at heven ⊢; omega
      obtain ⟨h1, h2, h3⟩ := ih rest hlen hrest hev
      obtain ⟨hbyte, hlt⟩ := hexByte_parse a b ha hb
      refine ⟨?_, ?_, ?_⟩
      · rw [show hexPairs (a :: b :: rest) = parseHexPair a b :: hexPairs rest from rfl,
          show bytesToHex (parseHexPair a b :: hexPairs rest)
            = hexByte (parseHexPair a b) ++ bytesToHex (hexPairs rest) from rfl,
          hbyte, h1]
        rfl
      · intro x hx
        rw [show hexPairs (a :: b :: rest) = parseHexPair a b :: hexPairs rest from rfl] at hx
        rcases List.mem_cons.mp hx with rfl | hx
        · exact hlt
        · exact h2 x hx
      · rw [show hexPairs (a :: b :: rest) = parseHexPair a b :: hexPairs rest from rfl]
        simp only [List.length_cons]
        omega

theorem padStart_noop (s : List Char) (h : s.length = 64) : padStart 64 '0' s = s := by
  rw [padStart, h]
  simp

theorem strStartsWith_append (pre rest : List Char) :
    strStartsWith (pre ++ rest) pre = true := by
  rw [strStartsWith, List.take_left]
  simp

theorem bech32Checksum_length (hrp : List Char) (data : List Nat) :
    (bech32Checksum hrp data).length = 6 := by
  simp [bech32Checksum]

theorem slice5Neg6_encode (pre body checks : List Char) (h5 : pre.length = 5)
    (h6 : checks.length = 6) :
    slice5Neg6 (pre ++ (body ++ checks)) = body := by
  rw [slice5Neg6]
  have hdrop : (pre ++ (body ++ checks)).drop 5 = body ++ checks := by
    rw [← h5]
    exact List.drop_left pre (body ++ checks)
  rw [hdrop, List.length_append, List.length_append, h5, h6,
    show 5 + (body.length + 6) - 11 = body.length from by omega]
  exact List.take_left body checks

theorem charsetChar_inv : ∀ (v : Nat), v < 32 →
    charsetLookup (BECH32_CHARSET.getD v 'q') = some v := by
  intro v hv
  interval_cases v <;> decide

theorem decodeChars_cons (c : Char) (cs : List Char) :
    decodeChars (c :: cs) = match charsetLookup c with
      | none => .error "Invalid character"
      | some v => (decodeChars cs).map (fun d => v :: d) := rfl

theorem decodeChars_map : ∀ (vs : List Nat), (∀ v ∈ vs, v < 32) →
    decodeChars (vs.map (fun v => BECH32_CHARSET.getD v 'q')) = .ok vs := by
  intro vs
  induction vs with
  | nil => intro _; rfl
  | cons v rest ih =>
    intro hv
    rw [List.map_cons, decodeChars_cons, charsetChar_inv v (hv v (by simp))]
    rw [ih fun x hx => hv x (by simp [hx])]
    rfl

end CryptoUtils

namespace CryptoUtils

theorem hex_no_0x (hex : List Char) (hhex : ∀ c ∈ hex, c ∈ HEX_DIGITS) :
    strStartsWith hex ("0x".data) = false := by
  cases hb : strStartsWith hex ("0x".data)
  · rfl
  · exfalso
    rw [strStartsWith] at hb
    have ht : hex.take ("0x".data).length = "0x".data := eq_of_beq hb
    have hx : 'x' ∈ hex := by
      have h1 : 'x' ∈ hex.take ("0x".data).length := by rw [ht]; decide
      exact List.take_subset _ hex h1
    exact absurd (hhex 'x' hx) (by decide)

theorem hexToNpub_eq (hex : List Char) (hlen : hex.length = 64)
    (hhex : ∀ c ∈ hex, c ∈ HEX_DIGITS) :
    hexToNpub hex
      = "npub1".data ++ ((conv8to5 (0 :: hexPairs hex) 0 0
          ++ bech32Checksum ("npub".data) (conv8to5 (0 :: hexPairs hex) 0 0)).map
            (fun v => BECH32_CHARSET.getD v 'q')) := by
  simp only [hexToNpub]
  rw [if_neg (by simp [hex_no_0x hex hhex]), padStart_noop hex hlen]

theorem hexPairs_bound (hex : List Char) (hlen : hex.length = 64)
    (hhex : ∀ c ∈ hex, c ∈ HEX_DIGITS) : ∀ b ∈ (0 :: hexPairs hex), b < 256 := by
  obtain ⟨hBH, hblt, hbl⟩ := hexPairs_inv hex.length hex le_rfl hhex (by omega)
  intro b hb
  rcases List.mem_cons.mp hb with rfl | hb
  · norm_num
  · exact hblt b hb

theorem conv8to5_bound (hex : List Char) (hlen : hex.length = 64)
    (hhex : ∀ c ∈ hex, c ∈ HEX_DIGITS) :
    ∀ g ∈ conv8to5 (0 :: hexPairs hex) 0 0, g < 32 := by
  rw [conv8to5_spec (0 :: hexPairs hex) 0 0 (by norm_num)
    (hexPairs_bound hex hlen hhex)]
  exact chunk5Num_lt _ _

theorem decodeNpub_hexToNpub (hex : List Char) (hlen : hex.length = 64)
    (hhex : ∀ c ∈ hex, c ∈ HEX_DIGITS) :
    decodeNpub (hexToNpub hex) = .ok (hexPairs hex) := by
  have hround : conv5to8 (conv8to5 (0 :: hexPairs hex) 0 0) 0 0 = 0 :: hexPairs hex :=
    conv_round _ (hexPairs_bound hex hlen hhex)
  rw [hexToNpub_eq hex hlen hhex]
  simp only [decodeNpub]
  rw [if_pos (strStartsWith_append _ _)]
  rw [List.map_append,
    slice5Neg6_encode ("npub1".data) _ _ rfl
      (by rw [List.length_map, bech32Checksum_length]),
    decodeChars_map _ (conv8to5_bound hex hlen hhex)]
  show Except.ok (stripVersion (conv5to8 (conv8to5 (0 :: hexPairs hex) 0 0) 0 0))
    = Except.ok (hexPairs hex)
  rw [hround]
  rfl

theorem hexToNpub_length (hex : List Char) (hlen : hex.length = 64)
    (hhex : ∀ c ∈ hex, c ∈ HEX_DIGITS) : (hexToNpub hex).length = 64 := by
  obtain ⟨hBH, hblt, hbl⟩ := hexPairs_inv hex.length hex le_rfl hhex (by omega)
  rw [hexToNpub_eq hex hlen hhex, List.length_append, List.length_map,
    List.length_append, bech32Checksum_length,
    conv8to5_spec (0 :: hexPairs hex) 0 0 (by norm_num) (hexPairs_bound hex hlen hhex),
    chunk5Num_length]
  rw [hlen] at hbl
  have h32 : (hexPairs hex).length = 32 := by omega
  simp only [List.length_cons, List.length_nil, h32]

theorem charsetGetD_mem (y : Nat) : BECH32_CHARSET.getD y 'q' ∈ BECH32_CHARSET := by
  by_cases h : y < BECH32_CHARSET.length
  · rw [List.getD_eq_getElem BECH32_CHARSET 'q' h]
    exact List.getElem_mem h
  · rw [List.getD_eq_default BECH32_CHARSET 'q' (by omega)]
    decide

theorem hexToNpub_getLast (hex : List Char) (hlen : hex.length = 64)
    (hhex : ∀ c ∈ hex, c ∈ HEX_DIGITS) :
    ∃ x, (hexToNpub hex).getLast? = some x ∧ x ∈ BECH32_CHARSET := by
  rw [hexToNpub_eq hex hlen hhex]
  set C := bech32Checksum ("npub".data) (conv8to5 (0 :: hexPairs hex) 0 0) with hC
  have h6 : C.length = 6 := bech32Checksum_length _ _
  have hne : C ≠ [] := by
    intro h
    rw [h] at h6
    simp at h6
  obtain ⟨y, hy⟩ := Option.isSome_iff_exists.mp (List.getLast?_isSome.mpr hne)
  refine ⟨BECH32_CHARSET.getD y 'q', ?_, charsetGetD_mem _⟩
  have hne2 : (conv8to5 (0 :: hexPairs hex) 0 0 ++ C) ≠ [] := by
    intro h
    have h2 := congrArg List.length h
    rw [List.length_append, h6] at h2
    simp at h2
  have hne3 : ((conv8to5 (0 :: hexPairs hex) 0 0 ++ C).map
      (fun v => BECH32_CHARSET.getD v 'q')) ≠ [] := by
    simpa using hne2
  rw [List.getLast?_append_of_ne_nil _ hne3, List.getLast?_map,
    List.getLast?_append_of_ne_nil _ hne, hy]
  rfl

/-- C2: the hex → bech32 → hex round trip is the identity on every 64
character lowercase-hex string, both through the public-key encoder/decoder
pair (`hexToNpub`/`npubToHex`) and through the event-id pair
(`hexToNote1`/`note1ToHex`). -/
theorem c2_round_trip (hex : List Char) (hlen : hex.length = 64)
    (hhex : ∀ c ∈ hex, c ∈ HEX_DIGITS) :
    npubToHex (hexToNpub hex) = .ok hex ∧ note1ToHex (hexToNote1 hex) = .ok hex := by
  obtain ⟨hBH, hblt, hbl⟩ := hexPairs_inv hex.length hex le_rfl hhex (by omega)
  have hround : conv5to8 (conv8to5 (0 :: hexPairs hex) 0 0) 0 0 = 0 :: hexPairs hex :=
    conv_round _ (hexPairs_bound hex hlen hhex)
  have hnp : strStartsWith (hexToNpub hex) ("npub".data) = true := by
    rw [hexToNpub_eq hex hlen hhex,
      show ("npub1".data : List Char) = "npub".data ++ ['1'] from rfl,
      List.append_assoc]
    exact strStartsWith_append _ _
  constructor
  · simp only [npubToHex]
    rw [if_pos hnp, decodeNpub_hexToNpub hex hlen hhex]
    show Except.ok (padStart 64 '0' (bytesToHex (hexPairs hex))) = Except.ok hex
    rw [hBH, padStart_noop hex hlen]
  · have henc1 : hexToNote1 hex
        = "note1".data ++ ((conv8to5 (0 :: hexPairs hex) 0 0
            ++ bech32Checksum ("note".data) (conv8to5 (0 :: hexPairs hex) 0 0)).map
              (fun v => BECH32_CHARSET.getD v 'q')) := by
      simp only [hexToNote1]
    have hsw1 : strStartsWith (hexToNote1 hex) ("note1".data) = true := by
      rw [henc1]
      exact strStartsWith_append _ _
    simp only [note1ToHex]
    rw [if_pos hsw1, henc1]
    rw [List.map_append,
      slice5Neg6_encode ("note1".data) _ _ rfl
        (by rw [List.length_map, bech32Checksum_length]),
      decodeChars_map _ (conv8to5_bound hex hlen hhex)]
    show Except.ok (bytesToHex (stripVersion (conv5to8 (conv8to5 (0 :: hexPairs hex) 0 0) 0 0)))
      = Except.ok hex
    rw [hround]
    show Except.ok (bytesToHex (hexPairs hex)) = Except.ok hex
    rw [hBH]

end CryptoUtils

namespace CryptoUtils

theorem c2_witness :
    npubToHex (hexToNpub
        ("82341f882b6eabcd2ba7f1ef90aad961cf074af15b9ef44a09f9d2a8fbfbe6a2".data))
      = .ok ("82341f882b6eabcd2ba7f1ef90aad961cf074af15b9ef44a09f9d2a8fbfbe6a2".data)
    ∧ note1ToHex (hexToNote1
        ("82341f882b6eabcd2ba7f1ef90aad961cf074af15b9ef44a09f9d2a8fbfbe6a2".data))
      = .ok ("82341f882b6eabcd2ba7f1ef90aad961cf074af15b9ef44a09f9d2a8fbfbe6a2".data) :=
  c2_round_trip ("82341f882b6eabcd2ba7f1ef90aad961cf074af15b9ef44a09f9d2a8fbfbe6a2".data)
    (by decide) (by decide)

theorem decodeNpub_take (s t : List Char) (hlen : s.length = t.length) (h11 : 11 ≤ s.length)
    (htake : s.take (s.length - 6) = t.take (t.length - 6)) :
    decodeNpub s = decodeNpub t := by
  have h5 : s.take 5 = t.take 5 := by
    have h := congrArg (List.take 5) htake
    rw [List.take_take, List.take_take, ← hlen] at h
    rwa [inf_eq_left.mpr (by omega : 5 ≤ s.length - 6)] at h
  have hsw : strStartsWith s ("npub1".data) = strStartsWith t ("npub1".data) := by
    rw [strStartsWith, strStartsWith, show ("npub1".data).length = 5 from rfl, h5]
  have hslice : slice5Neg6 s = slice5Neg6 t := by
    rw [slice5Neg6, slice5Neg6]
    have hs2 : (s.take (s.length - 6)).drop 5 = (s.drop 5).take (s.length - 11) := by
      rw [List.drop_take]
      congr 1
    have ht2 : (t.take (t.length - 6)).drop 5 = (t.drop 5).take (t.length - 11) := by
      rw [List.drop_take]
      congr 1
    rw [← hs2, ← ht2, htake]
  simp only [decodeNpub]
  rw [hsw, hslice]

theorem decodeChars_err : ∀ (body : List Char) (c : Char), c ∈ body →
    charsetLookup c = none → decodeChars body = .error "Invalid character" := by
  intro body
  induction body with
  | nil => intro c hc _; cases hc
  | cons x rest ih =>
    intro c hc hnone
    rw [decodeChars_cons]
    cases hx : charsetLookup x with
    | none => rfl
    | some v =>
      rcases List.mem_cons.mp hc with rfl | hc
      · rw [hx] at hnone; cases hnone
      · rw [ih c hc hnone]
        rfl

theorem decodeChars_ok : ∀ (body : List Char),
    (∀ c ∈ body, (charsetLookup c).isSome = true) → ∃ vs, decodeChars body = .ok vs := by
  intro body
  induction body with
  | nil => intro _; exact ⟨[], rfl⟩
  | cons x rest ih =>
    intro h
    obtain ⟨v, hv⟩ := Option.isSome_iff_exists.mp (h x (by simp))
    obtain ⟨vs, hvs⟩ := ih fun c hc => h c (by simp [hc])
    refine ⟨v :: vs, ?_⟩
    rw [decodeChars_cons, hv, hvs]
    rfl

theorem note1ToHex_take (s t : List Char) (hlen : s.length = t.length) (h11 : 11 ≤ s.length)
    (htake : s.take (s.length - 6) = t.take (t.length - 6)) :
    note1ToHex s = note1ToHex t := by
  have h5 : s.take 5 = t.take 5 := by
    have h := congrArg (List.take 5) htake
    rw [List.take_take, List.take_take, ← hlen] at h
    rwa [inf_eq_left.mpr (by omega : 5 ≤ s.length - 6)] at h
  have hsw : strStartsWith s ("note1".data) = strStartsWith t ("note1".data) := by
    rw [strStartsWith, strStartsWith, show ("note1".data).length = 5 from rfl, h5]
  have hslice : slice5Neg6 s = slice5Neg6 t := by
    rw [slice5Neg6, slice5Neg6]
    have hs2 : (s.take (s.length - 6)).drop 5 = (s.drop 5).take (s.length - 11) := by
      rw [List.drop_take]
      congr 1
    have ht2 : (t.take (t.length - 6)).drop 5 = (t.drop 5).take (t.length - 11) := by
      rw [List.drop_take]
      congr 1
    rw [← hs2, ← ht2, htake]
  simp only [note1ToHex]
  rw [hsw, hslice]

/-- C1 (amended): neither decoder verifies the bech32 checksum.  The result of
`decodeNpub`, and likewise of `note1ToHex`, depends only on the characters
before the final six, so a change confined to the trailing six (checksum)
characters never causes a failure or alters the output; a flip in the data
portion (between the prefix and the final six characters) makes decode fail
exactly when the substituted character falls outside the bech32 charset, and a
body made entirely of charset characters is always accepted. -/
theorem c1_amended_no_checksum_check :
    (∀ s t : List Char, s.length = t.length → 11 ≤ s.length →
        s.take (s.length - 6) = t.take (t.length - 6) → decodeNpub s = decodeNpub t)
    ∧ (∀ (s : List Char) (c : Char), strStartsWith s ("npub1".data) = true →
        c ∈ slice5Neg6 s → charsetLookup c = none →
        decodeNpub s = .error "Invalid character")
    ∧ (∀ s : List Char, strStartsWith s ("npub1".data) = true →
        (∀ c ∈ slice5Neg6 s, (charsetLookup c).isSome = true) →
        ∃ bs, decodeNpub s = .ok bs)
    ∧ (∀ s t : List Char, s.length = t.length → 11 ≤ s.length →
        s.take (s.length - 6) = t.take (t.length - 6) → note1ToHex s = note1ToHex t)
    ∧ (∀ (s : List Char) (c : Char), strStartsWith s ("note1".data) = true →
        c ∈ slice5Neg6 s → charsetLookup c = none →
        note1ToHex s = .error "Invalid note1 format: Invalid character")
    ∧ (∀ s : List Char, strStartsWith s ("note1".data) = true →
        (∀ c ∈ slice5Neg6 s, (charsetLookup c).isSome = true) →
        ∃ bs, note1ToHex s = .ok bs) := by
  refine ⟨decodeNpub_take, ?_, ?_, note1ToHex_take, ?_, ?_⟩
  · intro s c hsw hc hnone
    simp only [decodeNpub]
    rw [if_pos hsw, decodeChars_err (slice5Neg6 s) c hc hnone]
  · intro s hsw hall
    obtain ⟨vs, hvs⟩ := decodeChars_ok (slice5Neg6 s) hall
    refine ⟨stripVersion (conv5to8 vs 0 0), ?_⟩
    simp only [decodeNpub]
    rw [if_pos hsw, hvs]
  · intro s c hsw hc hnone
    simp only [note1ToHex]
    rw [if_pos hsw, decodeChars_err (slice5Neg6 s) c hc hnone]
    rfl
  · intro s hsw hall
    obtain ⟨vs, hvs⟩ := decodeChars_ok (slice5Neg6 s) hall
    refine ⟨bytesToHex (stripVersion (conv5to8 vs 0 0)), ?_⟩
    simp only [note1ToHex]
    rw [if_pos hsw, hvs]

theorem c1_amended_witness :
    decodeNpub ("npub1qqqqqq".data) = decodeNpub ("npub1qqqqqp".data)
    ∧ decodeNpub ("npub1bqqqqqqqqqqq".data) = .error "Invalid character"
    ∧ (∃ bs, decodeNpub ("npub1qqqqqqqqqqq".data) = .ok bs)
    ∧ note1ToHex ("note1qqqqqq".data) = note1ToHex ("note1qqqqqp".data)
    ∧ note1ToHex ("note1bqqqqqqqqqqq".data) = .error "Invalid note1 format: Invalid character"
    ∧ ∃ bs, note1ToHex ("note1qqqqqqqqqqq".data) = .ok bs :=
  ⟨c1_amended_no_checksum_check.1 ("npub1qqqqqq".data) ("npub1qqqqqp".data)
    (by decide) (by decide) (by decide),
   c1_amended_no_checksum_check.2.1 ("npub1bqqqqqqqqqqq".data) 'b'
    (by decide) (by decide) (by decide),
   c1_amended_no_checksum_check.2.2.1 ("npub1qqqqqqqqqqq".data) (by decide) (by decide),
   c1_amended_no_checksum_check.2.2.2.1 ("note1qqqqqq".data) ("note1qqqqqp".data)
    (by decide) (by decide) (by decide),
   c1_amended_no_checksum_check.2.2.2.2.1 ("note1bqqqqqqqqqqq".data) 'b'
    (by decide) (by decide) (by decide),
   c1_amended_no_checksum_check.2.2.2.2.2 ("note1qqqqqqqqqqq".data) (by decide) (by decide)⟩

theorem charset_lower : ∀ x ∈ BECH32_CHARSET, Char.toLower x = x ∧ x ≠ 'b' := by
  intro x h
  fin_cases h <;> exact ⟨by decide, by decide⟩

/-- C1 counterexample: the encoding of the all-zero key is accepted by the
decoder, and so is the string obtained from it by replacing its final
(checksum) character with `b` — a character that is not even in the bech32
charset, hence differs from the original final character other than by case.
The two strings agree except in that one final position, yet the flipped one
still decodes (to the same bytes) instead of failing. -/
theorem c1_counterexample :
    decodeNpub (hexToNpub (List.replicate 64 '0')) = .ok (List.replicate 32 0)
    ∧ decodeNpub ((hexToNpub (List.replicate 64 '0')).dropLast ++ ['b'])
        = .ok (List.replicate 32 0)
    ∧ ((hexToNpub (List.replicate 64 '0')).dropLast ++ ['b']).length
        = (hexToNpub (List.replicate 64 '0')).length
    ∧ ((hexToNpub (List.replicate 64 '0')).dropLast ++ ['b']).dropLast
        = (hexToNpub (List.replicate 64 '0')).dropLast
    ∧ ((hexToNpub (List.replicate 64 '0')).getLast?).map Char.toLower
        ≠ (((hexToNpub (List.replicate 64 '0')).dropLast ++ ['b']).getLast?).map
            Char.toLower := by
  have hlen0 : (List.replicate 64 '0').length = 64 := by simp
  have hhex0 : ∀ c ∈ List.replicate 64 '0', c ∈ HEX_DIGITS := by
    intro c hc
    rw [List.eq_of_mem_replicate hc]
    decide
  have hL : (hexToNpub (List.replicate 64 '0')).length = 64 :=
    hexToNpub_length _ hlen0 hhex0
  have hpairs : hexPairs (List.replicate 64 '0') = List.replicate 32 0 := by decide
  have h1 : decodeNpub (hexToNpub (List.replicate 64 '0')) = .ok (List.replicate 32 0) := by
    rw [decodeNpub_hexToNpub _ hlen0 hhex0, hpairs]
  have hl : ((hexToNpub (List.replicate 64 '0')).dropLast ++ ['b']).length
      = (hexToNpub (List.replicate 64 '0')).length := by
    rw [List.length_append, List.length_dropLast, hL]
    decide
  refine ⟨h1, ?_, hl, List.dropLast_concat, ?_⟩
  · have h11 : 11 ≤ ((hexToNpub (List.replicate 64 '0')).dropLast ++ ['b']).length := by
      rw [hl, hL]
      omega
    have ht : ((hexToNpub (List.replicate 64 '0')).dropLast ++ ['b']).take
          (((hexToNpub (List.replicate 64 '0')).dropLast ++ ['b']).length - 6)
        = (hexToNpub (List.replicate 64 '0')).take
          ((hexToNpub (List.replicate 64 '0')).length - 6) := by
      rw [hl, hL]
      rw [List.take_append_of_le_length (by rw [List.length_dropLast, hL]; omega)]
      rw [List.dropLast_eq_take, List.take_take, hL,
        Nat.min_eq_left (by omega : 64 - 6 ≤ 64 - 1)]
    exact (decodeNpub_take _ _ hl h11 ht).trans h1
  · obtain ⟨x, hx, hmem⟩ := hexToNpub_getLast _ hlen0 hhex0
    rw [hx, List.getLast?_concat]
    show some (Char.toLower x) ≠ some (Char.toLower 'b')
    rw [(charset_lower x hmem).1, show Char.toLower 'b' = 'b' from by decide]
    intro hEq
    exact (charset_lower x hmem).2 (Option.some.inj hEq)

end CryptoUtils

namespace CryptoUtils

/-- Rendering a hex digit value always yields a character of `HEX_DIGITS`
(the out-of-range default `'0'` is itself a hex digit). -/
theorem hexDigitChar_mem (n : Nat) : hexDigitChar n ∈ HEX_DIGITS := by
  rw [hexDigitChar]
  by_cases h : n < HEX_DIGITS.length
  · rw [List.getD_eq_getElem HEX_DIGITS '0' h]
    exact List.getElem_mem h
  · rw [List.getD_eq_default HEX_DIGITS '0' (by omega)]
    decide

/-- Every character produced by `bytesToHex` is a hex digit. -/
theorem bytesToHex_mem (bs : List Nat) : ∀ c ∈ bytesToHex bs, c ∈ HEX_DIGITS := by
  intro c hc
  rw [bytesToHex] at hc
  obtain ⟨b, _, hcb⟩ := List.mem_flatMap.mp hc
  simp only [hexByte, List.mem_cons, List.not_mem_nil, or_false] at hcb
  rcases hcb with rfl | rfl
  · exact hexDigitChar_mem _
  · exact hexDigitChar_mem _

/-- A string whose first character is not `'n'` does not start with `"npub"`. -/
theorem strStartsWith_npub_false (c : Char) (rest : List Char) (hc : c ≠ 'n') :
    strStartsWith (c :: rest) ("npub".data) = false := by
  rw [strStartsWith]
  apply beq_eq_false_iff_ne.mpr
  intro h
  rw [show ("npub".data).length = 4 from rfl, List.take_succ_cons,
    show "npub".data = 'n' :: "pub".data from rfl] at h
  injection h with h1 _
  exact hc h1

/-- Padding a hex-digit string to 64 characters with `'0'` never yields a string
starting with the `npub` prefix. -/
theorem padStart_not_npub (s : List Char) (hs : ∀ c ∈ s, c ∈ HEX_DIGITS) :
    strStartsWith (padStart 64 '0' s) ("npub".data) = false := by
  rw [padStart]
  cases he : 64 - s.length with
  | zero =>
    rw [List.replicate_zero, List.nil_append]
    cases s with
    | nil => exact absurd he (by decide)
    | cons c rest =>
      apply strStartsWith_npub_false
      intro hcn
      have hmem := hs c (List.mem_cons_self c rest)
      rw [hcn] at hmem
      exact absurd hmem (by decide)
  | succ k =>
    rw [List.replicate_succ, List.cons_append]
    apply strStartsWith_npub_false
    decide

/-- C6: `validatePubkey` returns `true` exactly when normalization (via
`npubToHex`) succeeds with a string of exactly 64 hex characters (lowercase or
uppercase), and a normalization error makes it return `false` rather than
propagate. -/
theorem c6_validate_iff_normalized_hex (p : List Char) :
    (validatePubkey p = true ↔
      ∃ s, normalizeKey p = .ok s ∧ s.length = 64 ∧ ∀ c ∈ s, isHexChar c = true)
    ∧ ∀ e, normalizeKey p = .error e → validatePubkey p = false := by
  have hv : ∀ s, npubToHex p = .ok s → validatePubkey p = regexTest64 s := by
    intro s hs
    rw [validatePubkey, hs]
  have hv2 : ∀ e, npubToHex p = .error e → validatePubkey p = false := by
    intro e he
    rw [validatePubkey, he]
  cases hn : npubToHex p with
  | ok s =>
    rw [hv s hn, normalizeKey, hn]
    constructor
    · rw [regexTest64]
      constructor
      · intro ht
        rw [Bool.and_eq_true, beq_iff_eq, List.all_eq_true] at ht
        exact ⟨s, rfl, ht.1, ht.2⟩
      · rintro ⟨s2, heq, hlen, hall⟩
        injection heq with heq
        subst heq
        rw [Bool.and_eq_true, beq_iff_eq, List.all_eq_true]
        exact ⟨hlen, hall⟩
    · intro e he
      exact Except.noConfusion he
  | error e0 =>
    rw [hv2 e0 hn, normalizeKey, hn]
    refine ⟨?_, fun _ _ => rfl⟩
    constructor
    · intro hf
      exact absurd hf (by decide)
    · rintro ⟨s2, heq, _, _⟩
      exact Except.noConfusion heq

/-- Witness for C6 at concrete inputs: the error path (an undecodable `npub`
string) yields `false`, and a 64-character hex string yields `true`. -/
theorem c6_witness :
    validatePubkey ("npub1invalid".data) = false
      ∧ validatePubkey (List.replicate 64 '0') = true :=
  ⟨(c6_validate_iff_normalized_hex ("npub1invalid".data)).2
      "Invalid npub format: Invalid character" rfl,
    (c6_validate_iff_normalized_hex (List.replicate 64 '0')).1.mpr
      ⟨List.replicate 64 '0', rfl, by decide, by decide⟩⟩

/-- C7: `normalizeKey` is idempotent on every successfully normalized input: a
successful output consists of padding zeros and hex digits, so it never begins
with the `npub` prefix and a second application returns it unchanged. -/
theorem c7_normalizeKey_idempotent (x y : List Char)
    (h : normalizeKey x = .ok y) : normalizeKey y = .ok y := by
  by_cases hsw : strStartsWith x ("npub".data) = true
  · rw [normalizeKey, npubToHex, if_pos hsw] at h
    cases hd : decodeNpub x with
    | ok bytes =>
      rw [hd] at h
      injection h with h
      subst h
      have hf : strStartsWith (padStart 64 '0' (bytesToHex bytes)) ("npub".data) = false :=
        padStart_not_npub _ (bytesToHex_mem bytes)
      rw [normalizeKey, npubToHex, if_neg (by rw [hf]; exact Bool.false_ne_true)]
    | error e =>
      rw [hd] at h
      exact Except.noConfusion h
  · rw [normalizeKey, npubToHex, if_neg hsw] at h
    injection h with h
    subst h
    rw [normalizeKey, npubToHex, if_neg hsw]

/-- Witness for C7 at a concrete decodable input: normalizing
`"npub1qqqqqqqqqqq"` yields the all-zero 64-character hex string, which a
second `normalizeKey` returns unchanged. -/
theorem c7_witness :
    normalizeKey (List.replicate 64 '0') = .ok (List.replicate 64 '0') :=
  c7_normalizeKey_idempotent ("npub1qqqqqqqqqqq".data) (List.replicate 64 '0') rfl

end CryptoUtils
